import Mathlib

/-!
Verification of `ideal_player.py` (keshrao/memory-game): a simulator of an
optimal-memory player for the Concentration card game.

The Python class `MemoryGameSimulator` is shallowly embedded here:
* the board is a `List (List Nat)` of symbols;
* the `revealed` dict is an insertion-ordered association list (Python dicts
  preserve insertion order, and `find_known_match` iterates `revealed.items()`
  in that order, so the order is semantically relevant);
* the `matched` set is a duplicate-free list (only membership, insertion and
  size are used by the source, so the order we keep is irrelevant);
* `random.shuffle` is modelled by quantifying over an arbitrary permutation
  of the pair sequence `symbols + symbols`;
* fallible operations (list indexing that can raise `IndexError` in Python)
  return `Option`: `none` is the error outcome.
-/

namespace MemoryGame

abbrev Pos := Nat × Nat

/-- State of `MemoryGameSimulator`: the fields set in `__init__` (with the
board as produced by `setup_board`; `total_cards` and `total_pairs` are the
derived quantities `rows*cols` and `rows*cols/2` and are computed inline). -/
structure GameState where
  rows : Nat
  cols : Nat
  board : List (List Nat)
  revealed : List (Pos × Nat)
  matched : List Pos
  moves : Nat
  perfect_matches : Nat
  exploratory_moves : Nat
deriving DecidableEq, Repr

/-- Python dict lookup `revealed[pos]` / `pos in revealed`. -/
def lookupRevealed : List (Pos × Nat) → Pos → Option Nat
  | [], _ => none
  | (p, v) :: rest, pos => if p = pos then some v else lookupRevealed rest pos

/-- Python dict assignment `revealed[pos] = sym`: update in place if the key
is present (keeping its position in the iteration order), else append. -/
def insertRevealed : List (Pos × Nat) → Pos → Nat → List (Pos × Nat)
  | [], pos, sym => [(pos, sym)]
  | (p, v) :: rest, pos, sym =>
      if p = pos then (p, sym) :: rest else (p, v) :: insertRevealed rest pos sym

/-- Python set insertion `matched.add(pos)`. -/
def addMatched (m : List Pos) (pos : Pos) : List Pos :=
  if pos ∈ m then m else m ++ [pos]

/-- Symbol stored at a position of a raw board. -/
def boardSym (b : List (List Nat)) (pos : Pos) : Nat :=
  (b.getD pos.1 []).getD pos.2 0

/-- `get_symbol`: `self.board[row][col]`.  All call sites of the source pass
in-range positions (proved below for every reachable state), so the embedding
uses total indexing with default values. -/
def GameState.get_symbol (s : GameState) (pos : Pos) : Nat :=
  boardSym s.board pos

/-- `find_known_match`: first position (in `revealed` insertion order) that
was seen holding `symbol` and is not yet matched. -/
def GameState.find_known_match (s : GameState) (symbol : Nat) : Option Pos :=
  (((s.revealed.filter fun e => decide (e.2 = symbol ∧ e.1 ∉ s.matched)).map Prod.fst)).head?

/-- The row-major enumeration `(i, j) for i in range(rows) for j in range(cols)`. -/
def allPositions (rows cols : Nat) : List Pos :=
  (List.range rows).flatMap fun i => (List.range cols).map fun j => (i, j)

/-- `get_unmatched_positions`. -/
def GameState.get_unmatched_positions (s : GameState) : List Pos :=
  (allPositions s.rows s.cols).filter fun p => decide (p ∉ s.matched)

/-- `make_move`: flip `pos1` and `pos2`, record both in `revealed`, then
either record the match or count a wrong move. -/
def GameState.make_move (s : GameState) (pos1 pos2 : Pos) (is_known_match : Bool) :
    GameState :=
  let symbol1 := s.get_symbol pos1
  let symbol2 := s.get_symbol pos2
  let s1 := { s with revealed := insertRevealed (insertRevealed s.revealed pos1 symbol1) pos2 symbol2 }
  if symbol1 = symbol2 then
    let s2 := { s1 with matched := addMatched (addMatched s1.matched pos1) pos2 }
    if is_known_match then { s2 with perfect_matches := s2.perfect_matches + 1 } else s2
  else
    { s1 with moves := s1.moves + 1, exploratory_moves := s1.exploratory_moves + 1 }

/-- The known-match scan of `play_turn` (lines 75-84): iterate the unmatched
positions; skip unrevealed ones; for a revealed one, ask `find_known_match`
and succeed if it returns a different position.  (In Python the guard is
`if match_pos and match_pos != pos`; `match_pos` is either `None` or a
2-tuple, and every 2-tuple is truthy, so the guard means exactly
`match_pos is not None and match_pos != pos`.) -/
def GameState.scanKnown (s : GameState) : List Pos → Option (Pos × Pos)
  | [] => none
  | pos :: rest =>
    match lookupRevealed s.revealed pos with
    | none => s.scanKnown rest
    | some symbol =>
      match s.find_known_match symbol with
      | some match_pos =>
          if match_pos ≠ pos then some (pos, match_pos) else s.scanKnown rest
      | none => s.scanKnown rest

/-- `play_turn`.  Returns `some (continue?, new state)`; `none` is the
`IndexError` of line 96 of the source (`[...][0]` on an empty list), which is
reachable in the code text only in the branch with exactly one unrevealed
unmatched position and no revealed unmatched one. -/
def GameState.play_turn (s : GameState) : Option (Bool × GameState) :=
  if s.matched.length = s.rows * s.cols then some (false, s)
  else
    let unmatched := s.get_unmatched_positions
    match s.scanKnown unmatched with
    | some (pos, match_pos) => some (true, s.make_move pos match_pos true)
    | none =>
      let unrevealed := unmatched.filter fun p => decide (lookupRevealed s.revealed p = none)
      match unrevealed with
      | pos1 :: pos2 :: _ => some (true, s.make_move pos1 pos2 false)
      | [pos1] =>
        match unmatched.filter (fun p => decide (lookupRevealed s.revealed p ≠ none)) with
        | pos2 :: _ => some (true, s.make_move pos1 pos2 false)
        | [] => none
      | [] => some (false, s)

/-- One row of `setup_board`'s layout loop: `cols` successive elements of the
shuffled pair list starting at `idx`; `none` if an index is out of range
(Python `IndexError`). -/
def buildRowList (pairs : List Nat) : Nat → Nat → Option (List Nat)
  | _, 0 => some []
  | idx, n + 1 =>
    match pairs[idx]? with
    | none => none
    | some v => (buildRowList pairs (idx + 1) n).map fun row => v :: row

/-- The full nested layout loop of `setup_board`. -/
def buildBoard (pairs : List Nat) : Nat → Nat → Nat → Option (List (List Nat))
  | _, 0, _ => some []
  | idx, m + 1, cols =>
    match buildRowList pairs idx cols with
    | none => none
    | some row => (buildBoard pairs (idx + cols) m cols).map fun rest => row :: rest

/-- `setup_board`: `pairs = symbols + symbols` is shuffled by
`random.shuffle`; the parameter `shuffled` is the list after the shuffle
(theorems quantify over all permutations of `symbols + symbols`), and the
result is its row-major layout into a `rows × cols` grid. -/
def setup_board (rows cols : Nat) (shuffled : List Nat) : Option (List (List Nat)) :=
  buildBoard shuffled 0 rows cols

/-- `__init__` followed by `setup_board` (the first thing `play_game` does). -/
def initGame (rows cols : Nat) (shuffled : List Nat) : Option GameState :=
  (setup_board rows cols shuffled).map fun b =>
    { rows := rows, cols := cols, board := b, revealed := [], matched := [],
      moves := 0, perfect_matches := 0, exploratory_moves := 0 }

/-- The `while self.play_turn():` loop of `play_game`, with its safety cap:
after each successful turn `turn_count` is incremented and the loop breaks
once `turn_count > 1000`.  `rem` is the number of further successful turns
still allowed before the cap; `play_game` starts it at `1000`, so the cap
break happens exactly on the 1001st successful turn, as in the source.
Result: `(final state, turn_count, cap reached?)`. -/
def gameLoop : GameState → Nat → Nat → Option (GameState × Nat × Bool)
  | s, turn_count, rem =>
    match s.play_turn with
    | none => none
    | some (false, s1) => some (s1, turn_count, false)
    | some (true, s1) =>
      match rem with
      | 0 => some (s1, turn_count + 1, true)
      | rem1 + 1 => gameLoop s1 (turn_count + 1) rem1

/-- `play_game` for one shuffle outcome. -/
def play_game (rows cols : Nat) (shuffled : List Nat) : Option (GameState × Nat × Bool) :=
  (initGame rows cols shuffled).bind fun s => gameLoop s 0 1000

/-- Repeatedly calling `play_turn` (without the cap): `n` successful turns. -/
def runTurns : GameState → Nat → Option GameState
  | s, 0 => some s
  | s, n + 1 =>
    match s.play_turn with
    | some (true, s1) => runTurns s1 n
    | _ => none

/-- States reachable from `s0` by successful turns. -/
inductive Reachable (s0 : GameState) : GameState → Prop
  | refl : Reachable s0 s0
  | step {s s1 : GameState} : Reachable s0 s → s.play_turn = some (true, s1) →
      Reachable s0 s1

/-- The modelled outcome of `random.shuffle(symbols + symbols)`: any
permutation of `[0,...,pairs-1] ++ [0,...,pairs-1]` with
`pairs = rows*cols // 2`. -/
def ValidShuffle (rows cols : Nat) (shuffled : List Nat) : Prop :=
  shuffled.Perm (List.range (rows * cols / 2) ++ List.range (rows * cols / 2))

/-- Number of grid positions never yet revealed. -/
def unrevCount (s : GameState) : Nat :=
  ((allPositions s.rows s.cols).filter fun p =>
    decide (lookupRevealed s.revealed p = none)).length

/-- Termination measure: unmatched cards plus unrevealed cards.  Every
successful turn decreases it by at least 2. -/
def turnMeasure (s : GameState) : Nat :=
  (s.rows * s.cols - s.matched.length) + unrevCount s

/-- Every cell has exactly one partner cell carrying the same symbol.  This
is the shape a freshly generated board always has. -/
def TwoPerSymbol (rows cols : Nat) (b : List (List Nat)) : Prop :=
  ∀ p ∈ allPositions rows cols, ∃ q ∈ allPositions rows cols,
    q ≠ p ∧ boardSym b q = boardSym b p ∧
    ∀ r ∈ allPositions rows cols, boardSym b r = boardSym b p → r = p ∨ r = q

/-- The state invariant of the simulator, for a game on board `b` of
dimensions `rows × cols`. -/
structure Inv (rows cols : Nat) (b : List (List Nat)) (s : GameState) : Prop where
  hrows : s.rows = rows
  hcols : s.cols = cols
  hboard : s.board = b
  hkeysNodup : (s.revealed.map Prod.fst).Nodup
  hsound : ∀ p v, lookupRevealed s.revealed p = some v → v = boardSym b p
  hrevSub : ∀ p v, lookupRevealed s.revealed p = some v → p ∈ allPositions rows cols
  hmNodup : s.matched.Nodup
  hmSub : ∀ p, p ∈ s.matched → p ∈ allPositions rows cols
  hmRev : ∀ p, p ∈ s.matched → lookupRevealed s.revealed p ≠ none
  hmEven : s.matched.length % 2 = 0
  hmClosed : ∀ p, p ∈ s.matched → ∀ q, q ∈ allPositions rows cols →
    boardSym b q = boardSym b p → q ∈ s.matched
  hcntEven : unrevCount s % 2 = 0
  hmoves : s.moves = s.exploratory_moves
  hperf : 2 * s.perfect_matches ≤ s.matched.length
  hmovesBound : 2 * s.moves + unrevCount s ≤ rows * cols

/-! ### Association-list (Python dict) lemmas -/

theorem lookup_insert_self (r : List (Pos × Nat)) (p : Pos) (v : Nat) :
    lookupRevealed (insertRevealed r p v) p = some v := by
  induction r with
  | nil => simp [insertRevealed, lookupRevealed]
  | cons e rest ih =>
      obtain ⟨q, w⟩ := e
      by_cases h : q = p
      · simp [insertRevealed, lookupRevealed, h]
      · simp [insertRevealed, lookupRevealed, h, ih]

theorem lookup_insert_ne (r : List (Pos × Nat)) (p : Pos) (v : Nat) (q : Pos)
    (h : q ≠ p) : lookupRevealed (insertRevealed r p v) q = lookupRevealed r q := by
  have hpq : ¬ p = q := fun h1 => h h1.symm
  induction r with
  | nil => simp [insertRevealed, lookupRevealed, hpq]
  | cons e rest ih =>
      obtain ⟨x, w⟩ := e
      by_cases hx : x = p
      · subst hx
        simp [insertRevealed, lookupRevealed, hpq]
      · simp only [insertRevealed, hx, if_false]
        by_cases hq : x = q
        · simp [lookupRevealed, hq]
        · simp [lookupRevealed, hq, ih]

theorem lookup_mem_entry {r : List (Pos × Nat)} {p : Pos} {v : Nat}
    (h : lookupRevealed r p = some v) : (p, v) ∈ r := by
  induction r with
  | nil => simp [lookupRevealed] at h
  | cons e rest ih =>
      obtain ⟨q, w⟩ := e
      by_cases hq : q = p
      · subst hq
        simp [lookupRevealed] at h
        simp [h]
      · simp [lookupRevealed, hq] at h
        exact List.mem_cons_of_mem _ (ih h)

theorem lookup_eq_none_iff {r : List (Pos × Nat)} {p : Pos} :
    lookupRevealed r p = none ↔ p ∉ r.map Prod.fst := by
  induction r with
  | nil => simp [lookupRevealed]
  | cons e rest ih =>
      obtain ⟨q, w⟩ := e
      by_cases hq : q = p
      · subst hq
        simp [lookupRevealed]
      · have hpq : ¬ p = q := fun h1 => hq h1.symm
        simp [lookupRevealed, hq, ih, hpq]

theorem entry_lookup {r : List (Pos × Nat)} {p : Pos} {v : Nat}
    (hnd : (r.map Prod.fst).Nodup) (h : (p, v) ∈ r) :
    lookupRevealed r p = some v := by
  induction r with
  | nil => simp at h
  | cons e rest ih =>
      obtain ⟨q, w⟩ := e
      simp only [List.map_cons, List.nodup_cons] at hnd
      rcases List.mem_cons.mp h with h1 | h1
      · injection h1 with h2 h3
        subst h2; subst h3
        simp [lookupRevealed]
      · by_cases hq : q = p
        · exfalso
          apply hnd.1
          subst hq
          exact List.mem_map_of_mem Prod.fst h1
        · simp only [lookupRevealed, hq, if_false]
          exact ih hnd.2 h1

theorem keys_insert_of_lookup_some {r : List (Pos × Nat)} {p : Pos} (v : Nat)
    (h : lookupRevealed r p ≠ none) :
    (insertRevealed r p v).map Prod.fst = r.map Prod.fst := by
  induction r with
  | nil => simp [lookupRevealed] at h
  | cons e rest ih =>
      obtain ⟨q, w⟩ := e
      by_cases hq : q = p
      · simp [insertRevealed, hq]
      · simp only [lookupRevealed, hq, if_false] at h
        simp [insertRevealed, hq, ih h]

theorem keys_insert_of_lookup_none {r : List (Pos × Nat)} {p : Pos} (v : Nat)
    (h : lookupRevealed r p = none) :
    (insertRevealed r p v).map Prod.fst = r.map Prod.fst ++ [p] := by
  induction r with
  | nil => simp [insertRevealed]
  | cons e rest ih =>
      obtain ⟨q, w⟩ := e
      by_cases hq : q = p
      · subst hq; simp [lookupRevealed] at h
      · simp only [lookupRevealed, hq, if_false] at h
        simp [insertRevealed, hq, ih h]

theorem keysNodup_insert {r : List (Pos × Nat)} {p : Pos} (v : Nat)
    (hnd : (r.map Prod.fst).Nodup) :
    ((insertRevealed r p v).map Prod.fst).Nodup := by
  cases hl : lookupRevealed r p with
  | none =>
      rw [keys_insert_of_lookup_none v hl]
      have hp : p ∉ r.map Prod.fst := lookup_eq_none_iff.mp hl
      simp [List.nodup_append, hnd, hp]
  | some w =>
      rw [keys_insert_of_lookup_some v (by simp [hl])]
      exact hnd

/-! ### Matched-set (Python set) lemmas -/

theorem mem_addMatched {m : List Pos} {p q : Pos} :
    q ∈ addMatched m p ↔ q ∈ m ∨ q = p := by
  unfold addMatched
  by_cases h : p ∈ m
  · rw [if_pos h]
    constructor
    · exact Or.inl
    · rintro (h1 | rfl)
      · exact h1
      · exact h
  · rw [if_neg h]
    simp

theorem addMatched_nodup {m : List Pos} {p : Pos} (h : m.Nodup) :
    (addMatched m p).Nodup := by
  unfold addMatched
  by_cases hp : p ∈ m
  · rw [if_pos hp]; exact h
  · rw [if_neg hp]
    simp [List.nodup_append, h, hp]

theorem length_addMatched_of_not_mem {m : List Pos} {p : Pos} (h : p ∉ m) :
    (addMatched m p).length = m.length + 1 := by
  simp [addMatched, h]

theorem length_addMatched_mono {m : List Pos} {p : Pos} :
    m.length ≤ (addMatched m p).length := by
  unfold addMatched
  by_cases hp : p ∈ m <;> simp [hp]

/-! ### Grid-position lemmas -/

theorem allPositions_eq_product (rows cols : Nat) :
    allPositions rows cols = (List.range rows) ×ˢ (List.range cols) := rfl

theorem mem_allPositions {rows cols : Nat} {p : Pos} :
    p ∈ allPositions rows cols ↔ p.1 < rows ∧ p.2 < cols := by
  obtain ⟨i, j⟩ := p
  rw [allPositions_eq_product]
  constructor
  · intro h
    have := List.mem_product.mp h
    simpa using this
  · intro h
    exact List.mem_product.mpr (by simpa using h)

theorem allPositions_nodup (rows cols : Nat) : (allPositions rows cols).Nodup := by
  rw [allPositions_eq_product]
  exact List.Nodup.product (List.nodup_range _) (List.nodup_range _)

theorem length_allPositions (rows cols : Nat) :
    (allPositions rows cols).length = rows * cols := by
  rw [allPositions_eq_product]
  rw [List.length_product, List.length_range, List.length_range]

/-! ### Board setup lemmas -/

theorem buildRowList_eq (pairs : List Nat) :
    ∀ (n idx : Nat), idx + n ≤ pairs.length →
      buildRowList pairs idx n = some ((pairs.drop idx).take n) := by
  intro n
  induction n with
  | zero => intro idx h; simp [buildRowList]
  | succ n ih =>
      intro idx h
      have hidx : idx < pairs.length := by omega
      have hx : pairs[idx]? = some pairs[idx] := List.getElem?_eq_getElem hidx
      unfold buildRowList
      rw [hx, ih (idx + 1) (by omega)]
      simp only [Option.map_some]
      rw [List.drop_eq_getElem_cons hidx]
      rfl

theorem buildBoard_eq (pairs : List Nat) (cols : Nat) :
    ∀ (m idx : Nat), idx + m * cols ≤ pairs.length →
      ∃ b, buildBoard pairs idx m cols = some b ∧ b.length = m ∧
        (∀ r ∈ b, r.length = cols) ∧ b.flatten = (pairs.drop idx).take (m * cols) := by
  intro m
  induction m with
  | zero => intro idx h; exact ⟨[], rfl, rfl, by simp, by simp⟩
  | succ m ih =>
      intro idx h
      rw [Nat.succ_mul] at h
      have hrow : idx + cols ≤ pairs.length := by omega
      obtain ⟨rest, hrest, hlen, hcols, hflat⟩ := ih (idx + cols) (by omega)
      refine ⟨(pairs.drop idx).take cols :: rest, ?_, ?_, ?_, ?_⟩
      · unfold buildBoard
        rw [buildRowList_eq pairs cols idx hrow, hrest]
        rfl
      · simp [hlen]
      · intro r hr
        rcases List.mem_cons.mp hr with h1 | h1
        · subst h1
          rw [List.length_take, List.length_drop]
          omega
        · exact hcols r h1
      · rw [List.flatten_cons, hflat]
        have harith : (m + 1) * cols = cols + m * cols := by
          rw [Nat.succ_mul]; omega
        rw [harith, List.take_add, List.drop_drop]

theorem buildRowList_some_le (pairs : List Nat) :
    ∀ (n idx : Nat) (row : List Nat), 1 ≤ n → buildRowList pairs idx n = some row →
      idx + n ≤ pairs.length := by
  intro n
  induction n with
  | zero => intro idx row h; omega
  | succ n ih =>
      intro idx row _ h
      unfold buildRowList at h
      cases hx : pairs[idx]? with
      | none => rw [hx] at h; cases h
      | some v =>
          rw [hx] at h
          have hidx : idx < pairs.length := by
            by_contra hc
            rw [List.getElem?_eq_none (by omega)] at hx
            cases hx
          cases n with
          | zero => omega
          | succ n1 =>
              rcases Option.map_eq_some'.mp h with ⟨row1, hrow1, _⟩
              have := ih (idx + 1) row1 (by omega) hrow1
              omega

theorem buildBoard_none (pairs : List Nat) (cols : Nat) (hc : 1 ≤ cols) :
    ∀ (m idx : Nat), 1 ≤ m → pairs.length < idx + m * cols →
      buildBoard pairs idx m cols = none := by
  intro m
  induction m with
  | zero => intro idx h; omega
  | succ m ih =>
      intro idx _ hlen
      rw [Nat.succ_mul] at hlen
      unfold buildBoard
      cases hrow : buildRowList pairs idx cols with
      | none => rfl
      | some row =>
          have h1 : idx + cols ≤ pairs.length := buildRowList_some_le pairs cols idx row hc hrow
          cases m with
          | zero =>
              exfalso
              omega
          | succ m1 =>
              rw [ih (idx + cols) (by omega) (by omega)]
              rfl

/-! ### The symbol multiset of a fresh board -/

theorem map_getD_range (l : List Nat) :
    (List.range l.length).map (fun j => l.getD j 0) = l := by
  induction l with
  | nil => simp
  | cons a l ih =>
      rw [List.length_cons, List.range_succ_eq_map, List.map_cons, List.map_map]
      have h1 : ((fun j => (a :: l).getD j 0) ∘ Nat.succ) = fun j => l.getD j 0 := by
        funext j
        simp
      rw [h1, ih]
      simp

theorem map_boardSym_allPositions :
    ∀ (b : List (List Nat)) (cols : Nat), (∀ r ∈ b, r.length = cols) →
      (allPositions b.length cols).map (boardSym b) = b.flatten := by
  intro b
  induction b with
  | nil => intro cols h; simp [allPositions]
  | cons row b ih =>
      intro cols hlen
      rw [List.length_cons]
      unfold allPositions
      rw [List.range_succ_eq_map, List.flatMap_cons, List.map_append]
      rw [List.flatten_cons]
      congr 1
      · rw [List.map_map]
        have hrow : row.length = cols := hlen row (List.mem_cons_self _ _)
        have : (boardSym (row :: b) ∘ fun j => ((0 : Nat), j)) = fun j => row.getD j 0 := by
          funext j
          simp [boardSym]
        rw [this, ← hrow, map_getD_range]
      · have hb := ih cols (fun r hr => hlen r (List.mem_cons_of_mem _ hr))
        rw [← hb]
        unfold allPositions
        simp only [List.flatMap_map, List.map_flatMap, List.map_map, Function.comp_def,
          boardSym, List.getD_cons_succ]

theorem nat_beq_decide (a b : Nat) : (a == b) = decide (a = b) := by
  by_cases h : a = b <;> simp [h]

theorem length_filter_symbol (rows cols : Nat) (b : List (List Nat))
    (hrows : b.length = rows) (hcols : ∀ r ∈ b, r.length = cols) (v : Nat) :
    ((allPositions rows cols).filter fun q => decide (boardSym b q = v)).length
      = b.flatten.count v := by
  subst hrows
  rw [← map_boardSym_allPositions b cols hcols]
  rw [List.count, List.countP_map, List.countP_eq_length_filter]
  congr 1

theorem twoPerSymbol_of_perm (rows cols : Nat) (b : List (List Nat))
    (hrows : b.length = rows) (hcols : ∀ r ∈ b, r.length = cols)
    (hperm : b.flatten.Perm
      (List.range (rows * cols / 2) ++ List.range (rows * cols / 2))) :
    TwoPerSymbol rows cols b := by
  intro p hp
  have hvmem : boardSym b p ∈ b.flatten := by
    rw [← map_boardSym_allPositions b cols hcols]
    subst hrows
    exact List.mem_map_of_mem (boardSym b) hp
  have hvlt : boardSym b p < rows * cols / 2 := by
    have h1 := hperm.mem_iff.mp hvmem
    rcases List.mem_append.mp h1 with h2 | h2 <;> exact List.mem_range.mp h2
  have hcount : b.flatten.count (boardSym b p) = 2 := by
    rw [hperm.count_eq, List.count_append,
      List.count_eq_one_of_mem (List.nodup_range _) (List.mem_range.mpr hvlt)]
  have hflen : ((allPositions rows cols).filter fun q =>
      decide (boardSym b q = boardSym b p)).length = 2 := by
    rw [length_filter_symbol rows cols b hrows hcols, hcount]
  have hpF : p ∈ (allPositions rows cols).filter fun q =>
      decide (boardSym b q = boardSym b p) :=
    List.mem_filter.mpr ⟨hp, by simp⟩
  have hFnd : ((allPositions rows cols).filter fun q =>
      decide (boardSym b q = boardSym b p)).Nodup :=
    (allPositions_nodup rows cols).filter _
  have hmemF : ∀ r, r ∈ (allPositions rows cols).filter (fun q =>
      decide (boardSym b q = boardSym b p)) ↔
      r ∈ allPositions rows cols ∧ boardSym b r = boardSym b p := by
    intro r
    rw [List.mem_filter]
    simp
  cases hF : (allPositions rows cols).filter (fun q =>
      decide (boardSym b q = boardSym b p)) with
  | nil => rw [hF] at hpF; cases hpF
  | cons x F1 =>
      cases F1 with
      | nil => rw [hF] at hflen; simp at hflen
      | cons y F2 =>
          cases F2 with
          | cons z F3 => rw [hF] at hflen; simp at hflen
          | nil =>
              rw [hF] at hpF hFnd hmemF
              have hxy : x ≠ y := by
                simpa using hFnd
              have hx := (hmemF x).mp (by simp)
              have hy := (hmemF y).mp (by simp)
              rcases List.mem_cons.mp hpF with hpx | hpy
              · subst hpx
                refine ⟨y, hy.1, hxy.symm, hy.2, ?_⟩
                intro r hr hsym
                have := (hmemF r).mpr ⟨hr, hsym⟩
                simp at this
                tauto
              · have hpy1 : p = y := by simpa using hpy
                subst hpy1
                refine ⟨x, hx.1, hxy, hx.2, ?_⟩
                intro r hr hsym
                have := (hmemF r).mpr ⟨hr, hsym⟩
                simp at this
                tauto

/-! ### Frame lemmas: a turn never touches the board or the dimensions -/

theorem make_move_frame (s : GameState) (p1 p2 : Pos) (k : Bool) :
    (s.make_move p1 p2 k).board = s.board ∧ (s.make_move p1 p2 k).rows = s.rows ∧
      (s.make_move p1 p2 k).cols = s.cols := by
  unfold GameState.make_move
  by_cases h : s.get_symbol p1 = s.get_symbol p2 <;> cases k <;> simp [h]

theorem play_turn_inv {s s1 : GameState} {c : Bool} (h : s.play_turn = some (c, s1)) :
    s1 = s ∨ ∃ p1 p2 k, s1 = s.make_move p1 p2 k := by
  unfold GameState.play_turn at h
  split at h
  · simp only [Option.some.injEq, Prod.mk.injEq] at h
    exact Or.inl h.2.symm
  · dsimp only at h
    split at h
    · simp only [Option.some.injEq, Prod.mk.injEq] at h
      exact Or.inr ⟨_, _, _, h.2.symm⟩
    · split at h
      · simp only [Option.some.injEq, Prod.mk.injEq] at h
        exact Or.inr ⟨_, _, _, h.2.symm⟩
      · split at h
        · simp only [Option.some.injEq, Prod.mk.injEq] at h
          exact Or.inr ⟨_, _, _, h.2.symm⟩
        · cases h
      · simp only [Option.some.injEq, Prod.mk.injEq] at h
        exact Or.inl h.2.symm

theorem play_turn_frame {s s1 : GameState} {c : Bool} (h : s.play_turn = some (c, s1)) :
    s1.board = s.board ∧ s1.rows = s.rows ∧ s1.cols = s.cols := by
  rcases play_turn_inv h with h1 | ⟨p1, p2, k, h1⟩
  · subst h1; exact ⟨rfl, rfl, rfl⟩
  · subst h1; exact make_move_frame s p1 p2 k

theorem reachable_frame {s0 s : GameState} (h : Reachable s0 s) :
    s.board = s0.board ∧ s.rows = s0.rows ∧ s.cols = s0.cols := by
  induction h with
  | refl => exact ⟨rfl, rfl, rfl⟩
  | step hr hstep ih =>
      have := play_turn_frame hstep
      exact ⟨this.1.trans ih.1, this.2.1.trans ih.2.1, this.2.2.trans ih.2.2⟩

/-! ### Claim theorems: board generation -/

/-- Claim C1: for every `rows`, `cols` with `rows*cols` even and positive, after
`setup_board` the board is a `rows × cols` grid whose row-major flattening is
a permutation of `[0,...,pairs-1] ++ [0,...,pairs-1]` with
`pairs = rows*cols/2`; its multiset of symbols contains each value below
`pairs` exactly twice; and the board is never mutated during the game. -/
theorem C1_board_is_paired_permutation (rows cols : Nat) (shuffled : List Nat)
    (hpos : 0 < rows * cols) (heven : rows * cols % 2 = 0)
    (hperm : ValidShuffle rows cols shuffled) :
    ∃ b, setup_board rows cols shuffled = some b ∧ b.length = rows ∧
      (∀ row ∈ b, row.length = cols) ∧
      b.flatten.Perm (List.range (rows * cols / 2) ++ List.range (rows * cols / 2)) ∧
      (∀ v, v < rows * cols / 2 → b.flatten.count v = 2) ∧
      (∀ s0 s, initGame rows cols shuffled = some s0 → Reachable s0 s →
        s.board = b) := by
  have hlen : shuffled.length = rows * cols := by
    have h1 := hperm.length_eq
    rw [List.length_append, List.length_range] at h1
    omega
  obtain ⟨b, hb, hblen, hbcols, hbflat⟩ :=
    buildBoard_eq shuffled cols rows 0 (by omega)
  have hflat : b.flatten = shuffled := by
    rw [hbflat, List.drop_zero, ← hlen, List.take_length]
  refine ⟨b, hb, hblen, hbcols, ?_, ?_, ?_⟩
  · rw [hflat]; exact hperm
  · intro v hv
    rw [hflat, hperm.count_eq, List.count_append,
      List.count_eq_one_of_mem (List.nodup_range _) (List.mem_range.mpr hv)]
  · intro s0 s h0 hr
    have hs0 : s0.board = b := by
      unfold initGame setup_board at h0
      rw [hb] at h0
      have h3 := Option.some.inj h0
      rw [← h3]
    rw [(reachable_frame hr).1, hs0]

/-- Claim C9: if `rows*cols` is odd, board generation errors out (Python
`IndexError` while laying out the grid, modelled as `none`) before any turn
is simulated, and `play_game` propagates that error; for even `rows*cols`
board generation has no error path. -/
theorem C9_odd_cell_count_fails_fast (rows cols : Nat) (shuffled : List Nat)
    (hperm : ValidShuffle rows cols shuffled) :
    (rows * cols % 2 = 1 →
      setup_board rows cols shuffled = none ∧ initGame rows cols shuffled = none ∧
        play_game rows cols shuffled = none) ∧
    (rows * cols % 2 = 0 → ∃ b, setup_board rows cols shuffled = some b) := by
  have hlen : shuffled.length = 2 * (rows * cols / 2) := by
    have h1 := hperm.length_eq
    rw [List.length_append, List.length_range] at h1
    omega
  constructor
  · intro hodd
    have hT : 1 ≤ rows * cols := by omega
    have hrows : 1 ≤ rows := by
      rcases Nat.eq_zero_or_pos rows with h | h
      · subst h; simp at hT
      · exact h
    have hcols : 1 ≤ cols := by
      rcases Nat.eq_zero_or_pos cols with h | h
      · subst h; simp at hT
      · exact h
    have hshort : shuffled.length < 0 + rows * cols := by omega
    have hnone : setup_board rows cols shuffled = none :=
      buildBoard_none shuffled cols hcols rows 0 hrows hshort
    refine ⟨hnone, ?_, ?_⟩
    · unfold initGame
      rw [hnone]
      rfl
    · unfold play_game initGame
      rw [hnone]
      rfl
  · intro heven
    obtain ⟨b, hb, _⟩ := buildBoard_eq shuffled cols rows 0 (by omega)
    exact ⟨b, hb⟩

/-! ### Component equations for `make_move` -/

theorem make_move_revealed (s : GameState) (p1 p2 : Pos) (k : Bool) :
    (s.make_move p1 p2 k).revealed =
      insertRevealed (insertRevealed s.revealed p1 (s.get_symbol p1)) p2
        (s.get_symbol p2) := by
  unfold GameState.make_move
  by_cases h : s.get_symbol p1 = s.get_symbol p2 <;> cases k <;> simp [h]

theorem make_move_of_eq (s : GameState) (p1 p2 : Pos) (k : Bool)
    (h : s.get_symbol p1 = s.get_symbol p2) :
    (s.make_move p1 p2 k).matched = addMatched (addMatched s.matched p1) p2 ∧
      (s.make_move p1 p2 k).moves = s.moves ∧
      (s.make_move p1 p2 k).exploratory_moves = s.exploratory_moves ∧
      (s.make_move p1 p2 k).perfect_matches =
        (if k then s.perfect_matches + 1 else s.perfect_matches) := by
  unfold GameState.make_move
  cases k <;> simp [h]

theorem make_move_of_ne (s : GameState) (p1 p2 : Pos) (k : Bool)
    (h : ¬ s.get_symbol p1 = s.get_symbol p2) :
    (s.make_move p1 p2 k).matched = s.matched ∧
      (s.make_move p1 p2 k).moves = s.moves + 1 ∧
      (s.make_move p1 p2 k).exploratory_moves = s.exploratory_moves + 1 ∧
      (s.make_move p1 p2 k).perfect_matches = s.perfect_matches := by
  unfold GameState.make_move
  cases k <;> simp [h]

theorem lookup_after_move (r : List (Pos × Nat)) (p1 p2 : Pos) (v1 v2 : Nat) (q : Pos) :
    lookupRevealed (insertRevealed (insertRevealed r p1 v1) p2 v2) q =
      if q = p2 then some v2 else if q = p1 then some v1 else lookupRevealed r q := by
  by_cases h2 : q = p2
  · subst h2
    rw [if_pos rfl]
    exact lookup_insert_self _ _ _
  · rw [if_neg h2, lookup_insert_ne _ _ _ _ h2]
    by_cases h1 : q = p1
    · subst h1
      rw [if_pos rfl]
      exact lookup_insert_self _ _ _
    · rw [if_neg h1]
      exact lookup_insert_ne _ _ _ _ h1

theorem length_addMatched_two {m : List Pos} {p1 p2 : Pos} (h12 : p1 ≠ p2)
    (h1 : p1 ∉ m) (h2 : p2 ∉ m) :
    (addMatched (addMatched m p1) p2).length = m.length + 2 := by
  have h2a : p2 ∉ addMatched m p1 := by
    rw [mem_addMatched]
    rintro (h | h)
    · exact h2 h
    · exact h12 h.symm
  rw [length_addMatched_of_not_mem h2a, length_addMatched_of_not_mem h1]

/-! ### Counting unrevealed positions -/

theorem length_filter_and_ne {α : Type} [DecidableEq α] :
    ∀ (l : List α), l.Nodup → ∀ (P : α → Bool) (p : α), p ∈ l → P p = true →
      (l.filter fun q => P q && decide (q ≠ p)).length + 1 = (l.filter P).length := by
  intro l
  induction l with
  | nil => intro _ P p hp; cases hp
  | cons a l ih =>
      intro hnd P p hp hPp
      have hnd1 : l.Nodup := (List.nodup_cons.mp hnd).2
      have hna : a ∉ l := (List.nodup_cons.mp hnd).1
      by_cases hpa : p = a
      · subst hpa
        simp [List.filter_cons, hPp]
        have heq : l.filter (fun q => P q && !decide (q = p)) = l.filter P := by
          apply List.filter_congr
          intro x hx
          have hxp : ¬ x = p := fun h => hna (h ▸ hx)
          simp [hxp]
        rw [heq]
      · rcases List.mem_cons.mp hp with h | h
        · exact absurd h.symm (fun h1 => hpa h1.symm)
        · have hap : a ≠ p := fun h1 => hpa h1.symm
          have hres := ih hnd1 P p h hPp
          simp only [ne_eq, decide_not] at hres
          simp [List.filter_cons, hap]
          cases hPa : P a with
          | false => simpa [hPa] using hres
          | true =>
              simp [hPa]
              omega

/-! ### Invariant preservation: the two kinds of moves `play_turn` makes -/

theorem make_move_known_inv {rows cols : Nat} {b : List (List Nat)} {s : GameState}
    (hTP : TwoPerSymbol rows cols b) (hI : Inv rows cols b s)
    {p1 p2 : Pos} {v : Nat}
    (h1 : lookupRevealed s.revealed p1 = some v)
    (h2 : lookupRevealed s.revealed p2 = some v)
    (hne : p1 ≠ p2) (hm1 : p1 ∉ s.matched) (hm2 : p2 ∉ s.matched) :
    Inv rows cols b (s.make_move p1 p2 true) ∧
      (s.make_move p1 p2 true).matched.length = s.matched.length + 2 ∧
      (s.make_move p1 p2 true).moves = s.moves ∧
      (s.make_move p1 p2 true).perfect_matches = s.perfect_matches + 1 ∧
      unrevCount (s.make_move p1 p2 true) = unrevCount s ∧
      (∀ q w, lookupRevealed s.revealed q = some w →
        lookupRevealed (s.make_move p1 p2 true).revealed q = some w) ∧
      p1 ∈ (s.make_move p1 p2 true).matched ∧
      p2 ∈ (s.make_move p1 p2 true).matched ∧
      s.get_symbol p1 = s.get_symbol p2 := by
  have hsym1 : v = boardSym b p1 := hI.hsound p1 v h1
  have hsym2 : v = boardSym b p2 := hI.hsound p2 v h2
  have hgs1 : s.get_symbol p1 = v := by
    unfold GameState.get_symbol
    rw [hI.hboard, ← hsym1]
  have hgs2 : s.get_symbol p2 = v := by
    unfold GameState.get_symbol
    rw [hI.hboard, ← hsym2]
  have hgs : s.get_symbol p1 = s.get_symbol p2 := by rw [hgs1, hgs2]
  have ha1 : p1 ∈ allPositions rows cols := hI.hrevSub p1 v h1
  have ha2 : p2 ∈ allPositions rows cols := hI.hrevSub p2 v h2
  obtain ⟨hmat, hmov, hexp, hperf⟩ := make_move_of_eq s p1 p2 true hgs
  have hrev := make_move_revealed s p1 p2 true
  have hfr := make_move_frame s p1 p2 true
  have hlook : ∀ q, lookupRevealed (s.make_move p1 p2 true).revealed q =
      if q = p2 then some (s.get_symbol p2) else if q = p1 then some (s.get_symbol p1)
        else lookupRevealed s.revealed q := by
    intro q
    rw [hrev]
    exact lookup_after_move _ _ _ _ _ _
  have hpres : ∀ q w, lookupRevealed s.revealed q = some w →
      lookupRevealed (s.make_move p1 p2 true).revealed q = some w := by
    intro q w hq
    rw [hlook q]
    by_cases hq2 : q = p2
    · subst hq2
      rw [hq] at h2
      rw [if_pos rfl, hgs2, Option.some.inj h2]
    · by_cases hq1 : q = p1
      · subst hq1
        rw [hq] at h1
        rw [if_neg hq2, if_pos rfl, hgs1, Option.some.inj h1]
      · rw [if_neg hq2, if_neg hq1]
        exact hq
  have hmemM : ∀ q, q ∈ (s.make_move p1 p2 true).matched ↔
      q ∈ s.matched ∨ q = p1 ∨ q = p2 := by
    intro q
    rw [hmat, mem_addMatched, mem_addMatched]
    tauto
  have hcnt : unrevCount (s.make_move p1 p2 true) = unrevCount s := by
    unfold unrevCount
    rw [hfr.2.1, hfr.2.2]
    apply congrArg List.length
    apply List.filter_congr
    intro q hq
    rw [hlook q]
    by_cases hq2 : q = p2
    · subst hq2
      simp [h2]
    · by_cases hq1 : q = p1
      · subst hq1
        simp [h1, hq2]
      · simp [hq1, hq2]
  have hlen2 : (s.make_move p1 p2 true).matched.length = s.matched.length + 2 := by
    rw [hmat]
    exact length_addMatched_two hne hm1 hm2
  have hbsym : boardSym b p2 = boardSym b p1 := by rw [← hsym1, ← hsym2]
  obtain ⟨q0, hq0mem, hq0ne, hq0sym, hq0uniq⟩ := hTP p1 ha1
  have hp2q0 : p2 = q0 := by
    rcases hq0uniq p2 ha2 hbsym with h | h
    · exact absurd h.symm hne
    · exact h
  refine ⟨?_, hlen2, hmov, by rw [hperf]; rfl, hcnt, hpres, (hmemM p1).mpr (Or.inr (Or.inl rfl)),
    (hmemM p2).mpr (Or.inr (Or.inr rfl)), hgs⟩
  refine ⟨hfr.2.1.trans hI.hrows, hfr.2.2.trans hI.hcols, hfr.1.trans hI.hboard, ?_, ?_, ?_,
    ?_, ?_, ?_, ?_, ?_, ?_, ?_, ?_, ?_⟩
  · rw [hrev]
    exact keysNodup_insert _ (keysNodup_insert _ hI.hkeysNodup)
  · intro q w hq
    rw [hlook q] at hq
    by_cases hq2 : q = p2
    · subst hq2
      rw [if_pos rfl] at hq
      rw [← Option.some.inj hq, hgs2, hsym2]
    · by_cases hq1 : q = p1
      · subst hq1
        rw [if_neg hq2, if_pos rfl] at hq
        rw [← Option.some.inj hq, hgs1, hsym1]
      · rw [if_neg hq2, if_neg hq1] at hq
        exact hI.hsound q w hq
  · intro q w hq
    rw [hlook q] at hq
    by_cases hq2 : q = p2
    · subst hq2; exact ha2
    · by_cases hq1 : q = p1
      · subst hq1; exact ha1
      · rw [if_neg hq2, if_neg hq1] at hq
        exact hI.hrevSub q w hq
  · rw [hmat]
    exact addMatched_nodup (addMatched_nodup hI.hmNodup)
  · intro q hq
    rcases (hmemM q).mp hq with h | h | h
    · exact hI.hmSub q h
    · subst h; exact ha1
    · subst h; exact ha2
  · intro q hq
    rw [hlook q]
    by_cases hq2 : q = p2
    · simp [hq2]
    · by_cases hq1 : q = p1
      · simp [hq1, hq2, hne]
      · rw [if_neg hq2, if_neg hq1]
        rcases (hmemM q).mp hq with h | h | h
        · exact hI.hmRev q h
        · exact absurd h hq1
        · exact absurd h hq2
  · rw [hlen2]
    have := hI.hmEven
    omega
  · intro p hp q hq hsymq
    rcases (hmemM p).mp hp with hpm | hpp
    · exact (hmemM q).mpr (Or.inl (hI.hmClosed p hpm q hq hsymq))
    · have hsymp : boardSym b p = boardSym b p1 := by
        rcases hpp with rfl | rfl
        · rfl
        · exact hbsym
      rw [hsymp] at hsymq
      rcases hq0uniq q hq hsymq with h | h
      · exact (hmemM q).mpr (Or.inr (Or.inl h))
      · rw [← hp2q0] at h
        exact (hmemM q).mpr (Or.inr (Or.inr h))
  · rw [hcnt]
    exact hI.hcntEven
  · rw [hmov, hexp]
    exact hI.hmoves
  · rw [hperf, hlen2]
    have := hI.hperf
    simp only [if_true]
    omega
  · rw [hmov, hcnt]
    exact hI.hmovesBound

theorem make_move_explore_inv {rows cols : Nat} {b : List (List Nat)} {s : GameState}
    (hTP : TwoPerSymbol rows cols b) (hI : Inv rows cols b s)
    {p1 p2 : Pos}
    (h1 : lookupRevealed s.revealed p1 = none)
    (h2 : lookupRevealed s.revealed p2 = none)
    (hne : p1 ≠ p2)
    (ha1 : p1 ∈ allPositions rows cols) (ha2 : p2 ∈ allPositions rows cols)
    (hm1 : p1 ∉ s.matched) (hm2 : p2 ∉ s.matched) :
    Inv rows cols b (s.make_move p1 p2 false) ∧
      unrevCount (s.make_move p1 p2 false) + 2 = unrevCount s ∧
      (s.make_move p1 p2 false).perfect_matches = s.perfect_matches ∧
      (∀ q w, lookupRevealed s.revealed q = some w →
        lookupRevealed (s.make_move p1 p2 false).revealed q = some w) ∧
      ((s.get_symbol p1 = s.get_symbol p2 ∧
          (s.make_move p1 p2 false).matched.length = s.matched.length + 2 ∧
          (s.make_move p1 p2 false).moves = s.moves) ∨
        (¬ s.get_symbol p1 = s.get_symbol p2 ∧
          (s.make_move p1 p2 false).matched = s.matched ∧
          (s.make_move p1 p2 false).moves = s.moves + 1)) := by
  have hrev := make_move_revealed s p1 p2 false
  have hfr := make_move_frame s p1 p2 false
  have hgs1 : s.get_symbol p1 = boardSym b p1 := by
    unfold GameState.get_symbol
    rw [hI.hboard]
  have hgs2 : s.get_symbol p2 = boardSym b p2 := by
    unfold GameState.get_symbol
    rw [hI.hboard]
  have hlook : ∀ q, lookupRevealed (s.make_move p1 p2 false).revealed q =
      if q = p2 then some (s.get_symbol p2) else if q = p1 then some (s.get_symbol p1)
        else lookupRevealed s.revealed q := by
    intro q
    rw [hrev]
    exact lookup_after_move _ _ _ _ _ _
  have hpres : ∀ q w, lookupRevealed s.revealed q = some w →
      lookupRevealed (s.make_move p1 p2 false).revealed q = some w := by
    intro q w hq
    rw [hlook q]
    by_cases hq2 : q = p2
    · subst hq2
      rw [hq] at h2
      cases h2
    · by_cases hq1 : q = p1
      · subst hq1
        rw [hq] at h1
        cases h1
      · rw [if_neg hq2, if_neg hq1]
        exact hq
  have hand : (allPositions rows cols).filter
      (fun q => decide (lookupRevealed (s.make_move p1 p2 false).revealed q = none)) =
      (allPositions rows cols).filter
      (fun q => (decide (lookupRevealed s.revealed q = none) && decide (q ≠ p1))
        && decide (q ≠ p2)) := by
    apply List.filter_congr
    intro x hx
    rw [hlook x]
    by_cases hx2 : x = p2
    · subst hx2
      simp
    · by_cases hx1 : x = p1
      · subst hx1
        simp [hx2]
      · simp [hx1, hx2]
  have hcnt : unrevCount (s.make_move p1 p2 false) + 2 = unrevCount s := by
    unfold unrevCount
    rw [hfr.2.1, hfr.2.2, hI.hrows, hI.hcols, hand]
    have hA : ((allPositions rows cols).filter
        (fun q => decide (lookupRevealed s.revealed q = none) && decide (q ≠ p1)
          && decide (q ≠ p2))).length + 1 =
        ((allPositions rows cols).filter
        (fun q => decide (lookupRevealed s.revealed q = none) && decide (q ≠ p1))).length :=
      length_filter_and_ne _ (allPositions_nodup rows cols) _ p2 ha2
        (by simp [h2]; exact fun h => hne h.symm)
    have hB : ((allPositions rows cols).filter
        (fun q => decide (lookupRevealed s.revealed q = none) && decide (q ≠ p1))).length + 1 =
        ((allPositions rows cols).filter
        (fun q => decide (lookupRevealed s.revealed q = none))).length :=
      length_filter_and_ne _ (allPositions_nodup rows cols) _ p1 ha1 (by simp [h1])
    omega
  have hmemN : ∀ q, lookupRevealed s.revealed q ≠ none →
      lookupRevealed (s.make_move p1 p2 false).revealed q ≠ none := by
    intro q hql
    rw [hlook q]
    by_cases hq2 : q = p2
    · simp [hq2]
    · by_cases hq1 : q = p1
      · simp [hq1, hne]
      · rw [if_neg hq2, if_neg hq1]
        exact hql
  by_cases hgs : s.get_symbol p1 = s.get_symbol p2
  · -- lucky match
    obtain ⟨hmat, hmov, hexp, hperf⟩ := make_move_of_eq s p1 p2 false hgs
    have hmemM : ∀ q, q ∈ (s.make_move p1 p2 false).matched ↔
        q ∈ s.matched ∨ q = p1 ∨ q = p2 := by
      intro q
      rw [hmat, mem_addMatched, mem_addMatched]
      tauto
    have hlen2 : (s.make_move p1 p2 false).matched.length = s.matched.length + 2 := by
      rw [hmat]
      exact length_addMatched_two hne hm1 hm2
    have hbsym : boardSym b p2 = boardSym b p1 := by
      rw [← hgs1, ← hgs2, hgs]
    obtain ⟨q0, hq0mem, hq0ne, hq0sym, hq0uniq⟩ := hTP p1 ha1
    have hp2q0 : p2 = q0 := by
      rcases hq0uniq p2 ha2 hbsym with h | h
      · exact absurd h.symm hne
      · exact h
    refine ⟨?_, hcnt, by rw [hperf]; rfl, hpres, Or.inl ⟨hgs, hlen2, hmov⟩⟩
    refine ⟨hfr.2.1.trans hI.hrows, hfr.2.2.trans hI.hcols, hfr.1.trans hI.hboard, ?_, ?_, ?_,
      ?_, ?_, ?_, ?_, ?_, ?_, ?_, ?_, ?_⟩
    · rw [hrev]
      exact keysNodup_insert _ (keysNodup_insert _ hI.hkeysNodup)
    · intro q w hq
      rw [hlook q] at hq
      by_cases hq2 : q = p2
      · subst hq2
        rw [if_pos rfl] at hq
        rw [← Option.some.inj hq, hgs2]
      · by_cases hq1 : q = p1
        · subst hq1
          rw [if_neg hq2, if_pos rfl] at hq
          rw [← Option.some.inj hq, hgs1]
        · rw [if_neg hq2, if_neg hq1] at hq
          exact hI.hsound q w hq
    · intro q w hq
      rw [hlook q] at hq
      by_cases hq2 : q = p2
      · subst hq2; exact ha2
      · by_cases hq1 : q = p1
        · subst hq1; exact ha1
        · rw [if_neg hq2, if_neg hq1] at hq
          exact hI.hrevSub q w hq
    · rw [hmat]
      exact addMatched_nodup (addMatched_nodup hI.hmNodup)
    · intro q hq
      rcases (hmemM q).mp hq with h | h | h
      · exact hI.hmSub q h
      · subst h; exact ha1
      · subst h; exact ha2
    · intro q hq
      rw [hlook q]
      by_cases hq2 : q = p2
      · simp [hq2]
      · by_cases hq1 : q = p1
        · simp [hq1, hne]
        · rw [if_neg hq2, if_neg hq1]
          rcases (hmemM q).mp hq with h | h | h
          · exact hI.hmRev q h
          · exact absurd h hq1
          · exact absurd h hq2
    · rw [hlen2]
      have := hI.hmEven
      omega
    · intro p hp q hq hsymq
      rcases (hmemM p).mp hp with hpm | hpp
      · exact (hmemM q).mpr (Or.inl (hI.hmClosed p hpm q hq hsymq))
      · have hsymp : boardSym b p = boardSym b p1 := by
          rcases hpp with rfl | rfl
          · rfl
          · exact hbsym
        rw [hsymp] at hsymq
        rcases hq0uniq q hq hsymq with h | h
        · exact (hmemM q).mpr (Or.inr (Or.inl h))
        · rw [← hp2q0] at h
          exact (hmemM q).mpr (Or.inr (Or.inr h))
    · have := hI.hcntEven
      omega
    · rw [hmov, hexp]
      exact hI.hmoves
    · rw [hperf, hlen2]
      have := hI.hperf
      simp only [Bool.false_eq_true, if_false]
      omega
    · rw [hmov]
      have := hI.hmovesBound
      omega
  · -- wrong guess
    obtain ⟨hmat, hmov, hexp, hperf⟩ := make_move_of_ne s p1 p2 false hgs
    refine ⟨?_, hcnt, by rw [hperf], hpres, Or.inr ⟨hgs, hmat, hmov⟩⟩
    refine ⟨hfr.2.1.trans hI.hrows, hfr.2.2.trans hI.hcols, hfr.1.trans hI.hboard, ?_, ?_, ?_,
      ?_, ?_, ?_, ?_, ?_, ?_, ?_, ?_, ?_⟩
    · rw [hrev]
      exact keysNodup_insert _ (keysNodup_insert _ hI.hkeysNodup)
    · intro q w hq
      rw [hlook q] at hq
      by_cases hq2 : q = p2
      · subst hq2
        rw [if_pos rfl] at hq
        rw [← Option.some.inj hq, hgs2]
      · by_cases hq1 : q = p1
        · subst hq1
          rw [if_neg hq2, if_pos rfl] at hq
          rw [← Option.some.inj hq, hgs1]
        · rw [if_neg hq2, if_neg hq1] at hq
          exact hI.hsound q w hq
    · intro q w hq
      rw [hlook q] at hq
      by_cases hq2 : q = p2
      · subst hq2; exact ha2
      · by_cases hq1 : q = p1
        · subst hq1; exact ha1
        · rw [if_neg hq2, if_neg hq1] at hq
          exact hI.hrevSub q w hq
    · rw [hmat]
      exact hI.hmNodup
    · intro q hq
      rw [hmat] at hq
      exact hI.hmSub q hq
    · intro q hq
      rw [hmat] at hq
      exact hmemN q (hI.hmRev q hq)
    · rw [hmat]
      exact hI.hmEven
    · intro p hp q hq hsymq
      rw [hmat] at hp ⊢
      exact hI.hmClosed p hp q hq hsymq
    · have := hI.hcntEven
      omega
    · rw [hmov, hexp, hI.hmoves]
    · rw [hperf, hmat]
      exact hI.hperf
    · rw [hmov]
      have := hI.hmovesBound
      omega

/-! ### Inversion lemmas for the decision policy -/

theorem mem_unmatched {s : GameState} {p : Pos} :
    p ∈ s.get_unmatched_positions ↔ p ∈ allPositions s.rows s.cols ∧ p ∉ s.matched := by
  unfold GameState.get_unmatched_positions
  rw [List.mem_filter]
  simp

theorem unmatched_nodup (s : GameState) : s.get_unmatched_positions.Nodup :=
  (allPositions_nodup _ _).filter _

theorem unrevealed_filter_eq {rows cols : Nat} {b : List (List Nat)} {s : GameState}
    (hI : Inv rows cols b s) :
    s.get_unmatched_positions.filter
        (fun p => decide (lookupRevealed s.revealed p = none)) =
      (allPositions s.rows s.cols).filter
        (fun p => decide (lookupRevealed s.revealed p = none)) := by
  unfold GameState.get_unmatched_positions
  rw [List.filter_filter]
  apply List.filter_congr
  intro x hx
  cases hl : lookupRevealed s.revealed x with
  | some w => simp [hl]
  | none =>
      have hxm : x ∉ s.matched := fun hm => (hI.hmRev x hm) hl
      simp [hl, hxm]

theorem length_unrevealed {rows cols : Nat} {b : List (List Nat)} {s : GameState}
    (hI : Inv rows cols b s) :
    (s.get_unmatched_positions.filter
      (fun p => decide (lookupRevealed s.revealed p = none))).length = unrevCount s := by
  rw [unrevealed_filter_eq hI]
  rfl

theorem scanKnown_some {s : GameState} : ∀ {l : List Pos} {a m : Pos},
    s.scanKnown l = some (a, m) → a ∈ l ∧ ∃ v, lookupRevealed s.revealed a = some v ∧
      s.find_known_match v = some m ∧ m ≠ a := by
  intro l
  induction l with
  | nil => intro a m h; cases h
  | cons pos rest ih =>
      intro a m h
      unfold GameState.scanKnown at h
      cases hl : lookupRevealed s.revealed pos with
      | none =>
          rw [hl] at h
          obtain ⟨hmem, hv⟩ := ih h
          exact ⟨List.mem_cons_of_mem _ hmem, hv⟩
      | some v =>
          rw [hl] at h
          dsimp only at h
          cases hf : s.find_known_match v with
          | none =>
              rw [hf] at h
              obtain ⟨hmem, hv⟩ := ih h
              exact ⟨List.mem_cons_of_mem _ hmem, hv⟩
          | some mp =>
              rw [hf] at h
              dsimp only at h
              by_cases hne : mp ≠ pos
              · rw [if_pos hne] at h
                injection Option.some.inj h with h1 h2
                subst h1
                subst h2
                exact ⟨List.mem_cons_self _ _, v, hl, hf, hne⟩
              · rw [if_neg hne] at h
                obtain ⟨hmem, hv⟩ := ih h
                exact ⟨List.mem_cons_of_mem _ hmem, hv⟩

theorem scanKnown_none {s : GameState} : ∀ {l : List Pos}, s.scanKnown l = none →
    ∀ p ∈ l, ∀ v, lookupRevealed s.revealed p = some v →
      ∀ m, s.find_known_match v = some m → m = p := by
  intro l
  induction l with
  | nil => intro h p hp; cases hp
  | cons pos rest ih =>
      intro h p hp v hv m hm
      unfold GameState.scanKnown at h
      rcases List.mem_cons.mp hp with h1 | hp1
      · subst h1
        rw [hv] at h
        dsimp only at h
        rw [hm] at h
        dsimp only at h
        by_cases hne : m ≠ p
        · rw [if_pos hne] at h
          cases h
        · push_neg at hne
          exact hne
      · cases hl : lookupRevealed s.revealed pos with
        | none =>
            rw [hl] at h
            exact ih h p hp1 v hv m hm
        | some w =>
            rw [hl] at h
            dsimp only at h
            cases hf : s.find_known_match w with
            | none =>
                rw [hf] at h
                exact ih h p hp1 v hv m hm
            | some mp =>
                rw [hf] at h
                dsimp only at h
                by_cases hne : mp ≠ pos
                · rw [if_pos hne] at h
                  cases h
                · rw [if_neg hne] at h
                  exact ih h p hp1 v hv m hm

theorem find_known_match_some {s : GameState} {v : Nat} {m : Pos}
    (h : s.find_known_match v = some m) :
    m ∉ s.matched ∧ (m, v) ∈ s.revealed := by
  unfold GameState.find_known_match at h
  rw [List.head?_map] at h
  cases he : (s.revealed.filter fun e => decide (e.2 = v ∧ e.1 ∉ s.matched)).head? with
  | none =>
      rw [he] at h
      cases h
  | some e =>
      rw [he] at h
      obtain ⟨em, ev⟩ := e
      have hem := List.mem_of_mem_head? he
      have hmf := List.mem_filter.mp hem
      have he2 : ev = v ∧ em ∉ s.matched := by simpa using hmf.2
      have hm : em = m := Option.some.inj h
      subst hm
      refine ⟨he2.2, ?_⟩
      rw [← he2.1]
      exact hmf.1

theorem find_known_match_isSome {s : GameState} {q : Pos} {v : Nat}
    (hq : (q, v) ∈ s.revealed) (hqm : q ∉ s.matched) :
    ∃ m, s.find_known_match v = some m := by
  unfold GameState.find_known_match
  have hqf : (q, v) ∈ s.revealed.filter fun e => decide (e.2 = v ∧ e.1 ∉ s.matched) :=
    List.mem_filter.mpr ⟨hq, by simp [hqm]⟩
  cases hfil : s.revealed.filter fun e => decide (e.2 = v ∧ e.1 ∉ s.matched) with
  | nil =>
      rw [hfil] at hqf
      cases hqf
  | cons e es =>
      exact ⟨e.1, rfl⟩

theorem matched_length_lt {rows cols : Nat} {b : List (List Nat)} {s : GameState}
    (hI : Inv rows cols b s) {p : Pos} (hp : p ∈ allPositions rows cols)
    (hpm : p ∉ s.matched) : s.matched.length < rows * cols := by
  have hnd : (p :: s.matched).Nodup := List.nodup_cons.mpr ⟨hpm, hI.hmNodup⟩
  have hsub : (p :: s.matched) ⊆ allPositions rows cols := by
    intro x hx
    rcases List.mem_cons.mp hx with h1 | h1
    · subst h1; exact hp
    · exact hI.hmSub x h1
  have := (List.subperm_of_subset hnd hsub).length_le
  rw [List.length_cons, length_allPositions] at this
  omega

/-- Inversion of a successful `play_turn`: under the invariant, the turn is
either a known-match move (both positions revealed with the same remembered
symbol) or an exploration of the first two unrevealed unmatched positions;
the single-unrevealed branch of the source is unreachable because the number
of unrevealed positions is always even. -/
theorem play_turn_true_cases {rows cols : Nat} {b : List (List Nat)}
    {s s1 : GameState} (hI : Inv rows cols b s)
    (h : s.play_turn = some (true, s1)) :
    (∃ p1 p2 v, lookupRevealed s.revealed p1 = some v ∧
      lookupRevealed s.revealed p2 = some v ∧ p1 ≠ p2 ∧
      p1 ∉ s.matched ∧ p2 ∉ s.matched ∧
      s.scanKnown s.get_unmatched_positions = some (p1, p2) ∧
      s1 = s.make_move p1 p2 true) ∨
    (∃ p1 p2, lookupRevealed s.revealed p1 = none ∧
      lookupRevealed s.revealed p2 = none ∧ p1 ≠ p2 ∧
      p1 ∈ allPositions rows cols ∧ p2 ∈ allPositions rows cols ∧
      p1 ∉ s.matched ∧ p2 ∉ s.matched ∧
      s.scanKnown s.get_unmatched_positions = none ∧
      (∃ rest, s.get_unmatched_positions.filter
        (fun p => decide (lookupRevealed s.revealed p = none)) = p1 :: p2 :: rest) ∧
      s1 = s.make_move p1 p2 false) := by
  unfold GameState.play_turn at h
  split at h
  · exact absurd ((Prod.mk.injEq .. ▸ Option.some.inj h).1) (by simp)
  · dsimp only at h
    split at h
    · -- known-match branch
      rename_i pos match_pos hscan
      left
      simp only [Option.some.injEq, Prod.mk.injEq, true_and] at h
      obtain ⟨hmem, v, hlookp, hfind, hne⟩ := scanKnown_some hscan
      obtain ⟨hmm, hentry⟩ := find_known_match_some hfind
      have hlookm : lookupRevealed s.revealed match_pos = some v :=
        entry_lookup hI.hkeysNodup hentry
      refine ⟨pos, match_pos, v, hlookp, hlookm, fun h1 => hne h1.symm,
        (mem_unmatched.mp hmem).2, hmm, hscan, h.symm⟩
    · -- no known match
      rename_i hscan
      split at h
      · -- two unrevealed positions
        rename_i p1 p2 tail hur
        right
        simp only [Option.some.injEq, Prod.mk.injEq, true_and] at h
        have hnd : (s.get_unmatched_positions.filter
            (fun p => decide (lookupRevealed s.revealed p = none))).Nodup :=
          (unmatched_nodup s).filter _
        rw [hur] at hnd
        have hne : p1 ≠ p2 := by
          rcases List.nodup_cons.mp hnd with ⟨hn1, _⟩
          exact fun h1 => hn1 (h1 ▸ List.mem_cons_self _ _)
        have hp1 : p1 ∈ s.get_unmatched_positions.filter
            (fun p => decide (lookupRevealed s.revealed p = none)) := by
          rw [hur]; exact List.mem_cons_self _ _
        have hp2 : p2 ∈ s.get_unmatched_positions.filter
            (fun p => decide (lookupRevealed s.revealed p = none)) := by
          rw [hur]; exact List.mem_cons_of_mem _ (List.mem_cons_self _ _)
        have hp1' := List.mem_filter.mp hp1
        have hp2' := List.mem_filter.mp hp2
        have hn1 : lookupRevealed s.revealed p1 = none := by simpa using hp1'.2
        have hn2 : lookupRevealed s.revealed p2 = none := by simpa using hp2'.2
        have hu1 := mem_unmatched.mp hp1'.1
        have hu2 := mem_unmatched.mp hp2'.1
        rw [hI.hrows, hI.hcols] at hu1 hu2
        exact ⟨p1, p2, hn1, hn2, hne, hu1.1, hu2.1, hu1.2, hu2.2, hscan, ⟨tail, hur⟩, h.symm⟩
      · -- exactly one unrevealed position: impossible (even count)
        rename_i p1 hur
        exfalso
        have hlen := length_unrevealed hI
        rw [hur] at hlen
        have := hI.hcntEven
        rw [← hlen] at this
        simp at this
      · -- no unrevealed positions: play_turn returned false
        exact absurd ((Prod.mk.injEq .. ▸ Option.some.inj h).1) (by simp)

theorem matched_length_le {rows cols : Nat} {b : List (List Nat)} {s : GameState}
    (hI : Inv rows cols b s) : s.matched.length ≤ rows * cols := by
  have := (List.subperm_of_subset hI.hmNodup (fun x hx => hI.hmSub x hx)).length_le
  rw [length_allPositions] at this
  exact this

/-- Every successful turn preserves the invariant, advances
`2*moves + |matched|` by exactly 2, and decreases the termination measure. -/
theorem play_turn_preserves {rows cols : Nat} {b : List (List Nat)} {s s1 : GameState}
    (hTP : TwoPerSymbol rows cols b) (hI : Inv rows cols b s)
    (h : s.play_turn = some (true, s1)) :
    Inv rows cols b s1 ∧
      2 * s1.moves + s1.matched.length = 2 * s.moves + s.matched.length + 2 ∧
      turnMeasure s1 + 2 ≤ turnMeasure s ∧
      s.matched.length ≤ s1.matched.length ∧
      s1.matched.length ≤ s.matched.length + 2 ∧
      (∀ q w, lookupRevealed s.revealed q = some w →
        lookupRevealed s1.revealed q = some w) ∧
      s.perfect_matches ≤ s1.perfect_matches := by
  have hmeas : turnMeasure s = (rows * cols - s.matched.length) + unrevCount s := by
    unfold turnMeasure
    rw [hI.hrows, hI.hcols]
  rcases play_turn_true_cases hI h with
    ⟨p1, p2, v, h1, h2, hne, hm1, hm2, _, rfl⟩ |
    ⟨p1, p2, h1, h2, hne, ha1, ha2, hm1, hm2, _, _, rfl⟩
  · obtain ⟨hI1, hlen, hmov, hperf, hcnt, hpres, _, _, _⟩ :=
      make_move_known_inv hTP hI h1 h2 hne hm1 hm2
    have hmeas1 : turnMeasure (s.make_move p1 p2 true) =
        (rows * cols - (s.make_move p1 p2 true).matched.length) +
          unrevCount (s.make_move p1 p2 true) := by
      unfold turnMeasure
      rw [hI1.hrows, hI1.hcols]
    have hle := matched_length_le hI1
    refine ⟨hI1, by omega, ?_, by omega, by omega, hpres, by omega⟩
    rw [hmeas, hmeas1, hcnt, hlen]
    omega
  · obtain ⟨hI1, hcnt, hperf, hpres, hcase⟩ :=
      make_move_explore_inv hTP hI h1 h2 hne ha1 ha2 hm1 hm2
    have hmeas1 : turnMeasure (s.make_move p1 p2 false) =
        (rows * cols - (s.make_move p1 p2 false).matched.length) +
          unrevCount (s.make_move p1 p2 false) := by
      unfold turnMeasure
      rw [hI1.hrows, hI1.hcols]
    have hle := matched_length_le hI1
    rcases hcase with ⟨hsym, hlen, hmov⟩ | ⟨hsym, hmat, hmov⟩
    · refine ⟨hI1, by omega, ?_, by omega, by omega, hpres, by omega⟩
      rw [hmeas, hmeas1, hlen]
      omega
    · have hlen : (s.make_move p1 p2 false).matched.length = s.matched.length := by
        rw [hmat]
      refine ⟨hI1, by omega, ?_, by omega, by omega, hpres, by omega⟩
      rw [hmeas, hmeas1, hlen]
      omega

theorem reachable_inv {rows cols : Nat} {b : List (List Nat)} {s0 s : GameState}
    (hTP : TwoPerSymbol rows cols b) (hI0 : Inv rows cols b s0)
    (hr : Reachable s0 s) : Inv rows cols b s := by
  induction hr with
  | refl => exact hI0
  | step hr hstep ih => exact (play_turn_preserves hTP ih hstep).1

/-- A freshly initialized game on a valid shuffle satisfies the invariant. -/
theorem init_inv {rows cols : Nat} {shuffled : List Nat} {s0 : GameState}
    (heven : rows * cols % 2 = 0) (hperm : ValidShuffle rows cols shuffled)
    (h0 : initGame rows cols shuffled = some s0) :
    ∃ b, s0.board = b ∧ TwoPerSymbol rows cols b ∧ Inv rows cols b s0 ∧
      s0.revealed = [] ∧ s0.matched = [] ∧ s0.moves = 0 ∧
      s0.perfect_matches = 0 ∧ s0.exploratory_moves = 0 ∧
      unrevCount s0 = rows * cols := by
  have hlen : shuffled.length = rows * cols := by
    have h1 := hperm.length_eq
    rw [List.length_append, List.length_range] at h1
    omega
  obtain ⟨b, hb, hblen, hbcols, hbflat⟩ := buildBoard_eq shuffled cols rows 0 (by omega)
  have hflat : b.flatten = shuffled := by
    rw [hbflat, List.drop_zero, ← hlen, List.take_length]
  have hTP : TwoPerSymbol rows cols b :=
    twoPerSymbol_of_perm rows cols b hblen hbcols (by rw [hflat]; exact hperm)
  unfold initGame setup_board at h0
  rw [hb] at h0
  have h3 := Option.some.inj h0
  dsimp only at h3
  subst h3
  have hcnt0 : unrevCount
      ({ rows := rows, cols := cols, board := b, revealed := [], matched := [],
         moves := 0, perfect_matches := 0, exploratory_moves := 0 } : GameState)
      = rows * cols := by
    unfold unrevCount
    have hft : ((allPositions rows cols).filter fun p =>
        decide (lookupRevealed [] p = none)) = allPositions rows cols := by
      apply List.filter_eq_self.mpr
      intro a ha
      simp [lookupRevealed]
    simp only []
    rw [hft, length_allPositions]
  refine ⟨b, rfl, hTP, ?_, rfl, rfl, rfl, rfl, rfl, hcnt0⟩
  refine ⟨rfl, rfl, rfl, ?_, ?_, ?_, ?_, ?_, ?_, ?_, ?_, ?_, ?_, ?_, ?_⟩
  · simp
  · intro p v hv
    cases hv
  · intro p v hv
    cases hv
  · simp
  · intro p hp
    cases hp
  · intro p hp
    cases hp
  · rfl
  · intro p hp
    cases hp
  · rw [hcnt0]
    exact heven
  · rfl
  · simp
  · dsimp only
    rw [hcnt0]
    omega

/-- Whenever the game is not yet complete, `play_turn` makes a successful
move: the defensive no-move fall-through of the source is unreachable. -/
theorem play_turn_progress {rows cols : Nat} {b : List (List Nat)} {s : GameState}
    (hTP : TwoPerSymbol rows cols b) (hI : Inv rows cols b s)
    (hne : ¬ s.matched.length = rows * cols) :
    ∃ s1, s.play_turn = some (true, s1) := by
  unfold GameState.play_turn
  rw [hI.hrows, hI.hcols, if_neg hne]
  dsimp only
  cases hscan : s.scanKnown s.get_unmatched_positions with
  | some pm =>
      obtain ⟨pos, mpos⟩ := pm
      exact ⟨_, rfl⟩
  | none =>
      cases hur : s.get_unmatched_positions.filter
          (fun p => decide (lookupRevealed s.revealed p = none)) with
      | cons p1 t1 =>
          cases t1 with
          | cons p2 t2 => exact ⟨_, rfl⟩
          | nil =>
              exfalso
              have hlen := length_unrevealed hI
              rw [hur] at hlen
              have := hI.hcntEven
              rw [← hlen] at this
              simp at this
      | nil =>
          exfalso
          have hallrev : ∀ a ∈ s.get_unmatched_positions,
              lookupRevealed s.revealed a ≠ none := by
            intro a ha
            have := List.filter_eq_nil_iff.mp hur a ha
            simpa using this
          cases hum : s.get_unmatched_positions with
          | nil =>
              have hsub : allPositions rows cols ⊆ s.matched := by
                intro x hx
                by_contra hxm
                have : x ∈ s.get_unmatched_positions := by
                  rw [mem_unmatched, hI.hrows, hI.hcols]
                  exact ⟨hx, hxm⟩
                rw [hum] at this
                cases this
              have := (List.subperm_of_subset (allPositions_nodup rows cols) hsub).length_le
              rw [length_allPositions] at this
              have hle := matched_length_le hI
              omega
          | cons p t =>
              have hpmem : p ∈ s.get_unmatched_positions := by
                rw [hum]
                exact List.mem_cons_self _ _
              have hpu := mem_unmatched.mp hpmem
              rw [hI.hrows, hI.hcols] at hpu
              obtain ⟨hpa, hpm⟩ := hpu
              obtain ⟨v0, hv0⟩ : ∃ v0, lookupRevealed s.revealed p = some v0 := by
                cases hl : lookupRevealed s.revealed p with
                | none => exact absurd hl (hallrev p hpmem)
                | some w => exact ⟨w, rfl⟩
              have hv0sym : v0 = boardSym b p := hI.hsound p v0 hv0
              obtain ⟨q0, hq0a, hq0ne, hq0sym, hq0uniq⟩ := hTP p hpa
              have hq0m : q0 ∉ s.matched := by
                intro hq0m
                exact hpm (hI.hmClosed q0 hq0m p hpa hq0sym.symm)
              have hq0mem : q0 ∈ s.get_unmatched_positions := by
                rw [mem_unmatched, hI.hrows, hI.hcols]
                exact ⟨hq0a, hq0m⟩
              obtain ⟨w0, hw0⟩ : ∃ w0, lookupRevealed s.revealed q0 = some w0 := by
                cases hl : lookupRevealed s.revealed q0 with
                | none => exact absurd hl (hallrev q0 hq0mem)
                | some w => exact ⟨w, rfl⟩
              have hw0v0 : w0 = v0 := by
                have := hI.hsound q0 w0 hw0
                rw [this, hq0sym, ← hv0sym]
              rw [hw0v0] at hw0
              obtain ⟨m0, hm0⟩ :=
                find_known_match_isSome (lookup_mem_entry hw0) hq0m
              have hmp := scanKnown_none hscan p hpmem v0 hv0 m0 hm0
              have hmq := scanKnown_none hscan q0 hq0mem v0 hw0 m0 hm0
              rw [hmp] at hmq
              exact hq0ne hmq.symm

/-! ### The game loop -/

theorem play_turn_complete {rows cols : Nat} {b : List (List Nat)} {s : GameState}
    (hI : Inv rows cols b s) (hc : s.matched.length = rows * cols) :
    s.play_turn = some (false, s) := by
  unfold GameState.play_turn
  rw [hI.hrows, hI.hcols, if_pos hc]

theorem play_turn_false_eq {s s1 : GameState}
    (h : s.play_turn = some (false, s1)) : s1 = s := by
  rcases h1 : s.play_turn with _ | ⟨c, s2⟩
  · rw [h1] at h; cases h
  · unfold GameState.play_turn at h
    split at h
    · exact ((Prod.mk.injEq .. ▸ Option.some.inj h).2).symm
    · dsimp only at h
      split at h
      · exact absurd ((Prod.mk.injEq .. ▸ Option.some.inj h).1).symm (by simp)
      · split at h
        · exact absurd ((Prod.mk.injEq .. ▸ Option.some.inj h).1).symm (by simp)
        · split at h
          · exact absurd ((Prod.mk.injEq .. ▸ Option.some.inj h).1).symm (by simp)
          · cases h
        · exact ((Prod.mk.injEq .. ▸ Option.some.inj h).2).symm

theorem play_turn_false_complete {rows cols : Nat} {b : List (List Nat)}
    {s s1 : GameState} (hTP : TwoPerSymbol rows cols b) (hI : Inv rows cols b s)
    (h : s.play_turn = some (false, s1)) : s.matched.length = rows * cols := by
  by_contra hc
  obtain ⟨s2, hstep⟩ := play_turn_progress hTP hI hc
  rw [hstep] at h
  exact absurd ((Prod.mk.injEq .. ▸ Option.some.inj h).1) (by simp)

/-- Completion: from any invariant state the game finishes, by repeated
`play_turn`, within `turnMeasure / 2` further successful turns. -/
theorem runTurns_complete {rows cols : Nat} {b : List (List Nat)}
    (hTP : TwoPerSymbol rows cols b) :
    ∀ (k : Nat) (s : GameState), Inv rows cols b s → turnMeasure s ≤ 2 * k →
      ∃ n s1, n ≤ k ∧ runTurns s n = some s1 ∧ Inv rows cols b s1 ∧
        s1.matched.length = rows * cols ∧
        2 * s1.moves + s1.matched.length =
          2 * s.moves + s.matched.length + 2 * n := by
  intro k
  induction k with
  | zero =>
      intro s hI hm
      refine ⟨0, s, Nat.le_refl 0, rfl, hI, ?_, by omega⟩
      have hle := matched_length_le hI
      have hmeq : turnMeasure s = (rows * cols - s.matched.length) + unrevCount s := by
        unfold turnMeasure
        rw [hI.hrows, hI.hcols]
      omega
  | succ k ih =>
      intro s hI hm
      by_cases hc : s.matched.length = rows * cols
      · exact ⟨0, s, Nat.zero_le _, rfl, hI, hc, by omega⟩
      · obtain ⟨s1, hstep⟩ := play_turn_progress hTP hI hc
        obtain ⟨hI1, hcount, hmeas, _, _, _, _⟩ := play_turn_preserves hTP hI hstep
        obtain ⟨n, s2, hn, hrun, hI2, hdone, hcnt2⟩ := ih s1 hI1 (by omega)
        refine ⟨n + 1, s2, by omega, ?_, hI2, hdone, by omega⟩
        unfold runTurns
        rw [hstep]
        exact hrun

/-- A completed run, re-expressed as the source's `while` loop with the
turn cap: if at most `rem` successful turns are needed, the loop exits
normally with `turn_count` increased by that number of turns. -/
theorem gameLoop_of_runTurns :
    ∀ (n : Nat) (s s1 : GameState) (tc rem : Nat), runTurns s n = some s1 →
      s1.play_turn = some (false, s1) → n ≤ rem →
      gameLoop s tc rem = some (s1, tc + n, false) := by
  intro n
  induction n with
  | zero =>
      intro s s1 tc rem hrun hdone _
      have hs : s = s1 := Option.some.inj hrun
      subst hs
      unfold gameLoop
      rw [hdone]
      rfl
  | succ n ih =>
      intro s s1 tc rem hrun hdone hle
      unfold runTurns at hrun
      cases hstep : s.play_turn with
      | none =>
          rw [hstep] at hrun
          cases hrun
      | some cs =>
          obtain ⟨c, s2⟩ := cs
          rw [hstep] at hrun
          cases c with
          | false =>
              dsimp only at hrun
              cases hrun
          | true =>
              dsimp only at hrun
              cases rem with
              | zero => omega
              | succ rem1 =>
                  unfold gameLoop
                  rw [hstep]
                  dsimp only
                  rw [ih s2 s1 (tc + 1) rem1 hrun hdone (by omega)]
                  have harith : tc + 1 + n = tc + (n + 1) := by omega
                  rw [harith]

/-- If more successful turns are needed than the cap allows, the loop exits
through the cap with `turn_count = tc + rem + 1`. -/
theorem gameLoop_capped {rows cols : Nat} {b : List (List Nat)}
    (hTP : TwoPerSymbol rows cols b) :
    ∀ (rem : Nat) (s : GameState) (tc : Nat), Inv rows cols b s →
      s.matched.length + 2 * (rem + 1) < rows * cols →
      ∃ s1, gameLoop s tc rem = some (s1, tc + rem + 1, true) := by
  intro rem
  induction rem with
  | zero =>
      intro s tc hI hlt
      obtain ⟨s1, hstep⟩ := play_turn_progress hTP hI (by omega)
      refine ⟨s1, ?_⟩
      unfold gameLoop
      rw [hstep]
  | succ rem ih =>
      intro s tc hI hlt
      obtain ⟨s1, hstep⟩ := play_turn_progress hTP hI (by omega)
      obtain ⟨hI1, _, _, _, hlen2, _, _⟩ := play_turn_preserves hTP hI hstep
      obtain ⟨s2, hloop⟩ := ih s1 (tc + 1) hI1 (by omega)
      refine ⟨s2, ?_⟩
      unfold gameLoop
      rw [hstep]
      dsimp only
      rw [hloop]
      have harith : tc + 1 + rem + 1 = tc + (rem + 1) + 1 := by omega
      rw [harith]

/-- A normal exit of the loop preserves the invariant and accounts for the
turn counter: each turn contributed exactly one match or one wrong move. -/
theorem gameLoop_false_inv {rows cols : Nat} {b : List (List Nat)}
    (hTP : TwoPerSymbol rows cols b) :
    ∀ (rem : Nat) (s : GameState) (tc : Nat) (s1 : GameState) (tc1 : Nat),
      Inv rows cols b s → gameLoop s tc rem = some (s1, tc1, false) →
      Inv rows cols b s1 ∧ s1.matched.length = rows * cols ∧
        2 * s1.moves + s1.matched.length + 2 * tc =
          2 * s.moves + s.matched.length + 2 * tc1 := by
  intro rem
  induction rem with
  | zero =>
      intro s tc s1 tc1 hI h
      unfold gameLoop at h
      cases hstep : s.play_turn with
      | none =>
          rw [hstep] at h
          cases h
      | some cs =>
          obtain ⟨c, s2⟩ := cs
          rw [hstep] at h
          cases c with
          | false =>
              dsimp only at h
              have h2 := Option.some.inj h
              have hs2 : s2 = s := play_turn_false_eq hstep
              subst hs2
              have hcomp := play_turn_false_complete hTP hI hstep
              injection h2 with ha hb
              injection hb with hb1 hb2
              subst ha
              subst hb1
              exact ⟨hI, hcomp, by omega⟩
          | true =>
              dsimp only at h
              have h2 := Option.some.inj h
              injection h2 with _ hb
              injection hb with _ hb2
              exact absurd hb2.symm (by simp)
  | succ rem ih =>
      intro s tc s1 tc1 hI h
      unfold gameLoop at h
      cases hstep : s.play_turn with
      | none =>
          rw [hstep] at h
          cases h
      | some cs =>
          obtain ⟨c, s2⟩ := cs
          rw [hstep] at h
          cases c with
          | false =>
              dsimp only at h
              have h2 := Option.some.inj h
              have hs2 : s2 = s := play_turn_false_eq hstep
              subst hs2
              have hcomp := play_turn_false_complete hTP hI hstep
              injection h2 with ha hb
              injection hb with hb1 hb2
              subst ha
              subst hb1
              exact ⟨hI, hcomp, by omega⟩
          | true =>
              dsimp only at h
              obtain ⟨hI2, hcount, _, _, _, _, _⟩ := play_turn_preserves hTP hI hstep
              obtain ⟨hIf, hcomp, hrel⟩ := ih s2 (tc + 1) s1 tc1 hI2 h
              exact ⟨hIf, hcomp, by omega⟩

theorem make_move_matched_superset (s : GameState) (p1 p2 : Pos) (k : Bool) :
    ∀ q ∈ s.matched, q ∈ (s.make_move p1 p2 k).matched := by
  intro q hq
  by_cases h : s.get_symbol p1 = s.get_symbol p2
  · rw [(make_move_of_eq s p1 p2 k h).1, mem_addMatched, mem_addMatched]
    tauto
  · rw [(make_move_of_ne s p1 p2 k h).1]
    exact hq

/-! ### Claim theorems: reachable-state properties -/

/-- Claim C2: in every reachable state of a valid game, whenever `play_turn`
selects a pair via the known-match scan (and hence calls `make_move` with
`is_known_match=True`), the true board symbols at the two chosen positions
are equal; the turn adds both positions to `matched`, increments
`perfect_matches`, and does not increment `moves`. -/
theorem C2_known_match_correct (rows cols : Nat) (shuffled : List Nat)
    (s0 s : GameState) (p1 p2 : Pos)
    (heven : rows * cols % 2 = 0) (hperm : ValidShuffle rows cols shuffled)
    (h0 : initGame rows cols shuffled = some s0) (hr : Reachable s0 s)
    (hscan : s.scanKnown s.get_unmatched_positions = some (p1, p2)) :
    s.get_symbol p1 = s.get_symbol p2 ∧
      s.play_turn = some (true, s.make_move p1 p2 true) ∧
      p1 ∈ (s.make_move p1 p2 true).matched ∧
      p2 ∈ (s.make_move p1 p2 true).matched ∧
      (s.make_move p1 p2 true).perfect_matches = s.perfect_matches + 1 ∧
      (s.make_move p1 p2 true).moves = s.moves := by
  obtain ⟨b, hb, hTP, hI0, _⟩ := init_inv heven hperm h0
  have hI := reachable_inv hTP hI0 hr
  obtain ⟨hmem, v, hlookp, hfind, hne⟩ := scanKnown_some hscan
  obtain ⟨hmm, hentry⟩ := find_known_match_some hfind
  have hlookm : lookupRevealed s.revealed p2 = some v :=
    entry_lookup hI.hkeysNodup hentry
  have hm1 : p1 ∉ s.matched := (mem_unmatched.mp hmem).2
  have ha1 : p1 ∈ allPositions rows cols := by
    have := (mem_unmatched.mp hmem).1
    rwa [hI.hrows, hI.hcols] at this
  obtain ⟨hI1, hlen, hmov, hperfeq, hcnt, hpres, hp1m, hp2m, hgs⟩ :=
    make_move_known_inv hTP hI hlookp hlookm (fun h => hne h.symm) hm1 hmm
  refine ⟨hgs, ?_, hp1m, hp2m, hperfeq, hmov⟩
  have hlt : s.matched.length < rows * cols := matched_length_lt hI ha1 hm1
  unfold GameState.play_turn
  rw [hI.hrows, hI.hcols, if_neg (by omega)]
  dsimp only
  rw [hscan]

/-- Witness for C2: the third turn of the 2×2 game on the board
`[[0,1],[0,1]]` is a known match of `(1,0)` with `(0,0)`. -/
theorem C2_known_match_correct_witness :
    (⟨2, 2, [[0,1],[0,1]], [((0,0),0), ((0,1),1), ((1,0),0), ((1,1),1)], [],
      2, 0, 2⟩ : GameState).get_symbol (1,0) =
    (⟨2, 2, [[0,1],[0,1]], [((0,0),0), ((0,1),1), ((1,0),0), ((1,1),1)], [],
      2, 0, 2⟩ : GameState).get_symbol (0,0) :=
  (C2_known_match_correct 2 2 [0,1,0,1]
    ⟨2, 2, [[0,1],[0,1]], [], [], 0, 0, 0⟩
    ⟨2, 2, [[0,1],[0,1]], [((0,0),0), ((0,1),1), ((1,0),0), ((1,1),1)], [], 2, 0, 2⟩
    (1,0) (0,0) (by decide) (by unfold ValidShuffle; decide) (by decide)
    (@Reachable.step ⟨2, 2, [[0,1],[0,1]], [], [], 0, 0, 0⟩
      ⟨2, 2, [[0,1],[0,1]], [((0,0),0), ((0,1),1)], [], 1, 0, 1⟩
      ⟨2, 2, [[0,1],[0,1]], [((0,0),0), ((0,1),1), ((1,0),0), ((1,1),1)], [], 2, 0, 2⟩
      (Reachable.step Reachable.refl (by decide)) (by decide))
    (by decide)).1

/-- Claim C6: the revealed mapping is monotone and sound in every reachable
state: a recorded symbol equals the true board symbol at that position, and
a successful turn never removes a key or changes a recorded value (so
re-revealing a position re-records the same symbol). -/
theorem C6_revealed_monotone_sound (rows cols : Nat) (shuffled : List Nat)
    (s0 s : GameState)
    (heven : rows * cols % 2 = 0) (hperm : ValidShuffle rows cols shuffled)
    (h0 : initGame rows cols shuffled = some s0) (hr : Reachable s0 s) :
    (∀ p v, lookupRevealed s.revealed p = some v → v = s.get_symbol p) ∧
      (∀ s1, s.play_turn = some (true, s1) →
        ∀ p v, lookupRevealed s.revealed p = some v →
          lookupRevealed s1.revealed p = some v) := by
  obtain ⟨b, hb, hTP, hI0, _⟩ := init_inv heven hperm h0
  have hI := reachable_inv hTP hI0 hr
  constructor
  · intro p v hv
    have hs := hI.hsound p v hv
    unfold GameState.get_symbol
    rw [hI.hboard]
    exact hs
  · intro s1 hstep
    exact (play_turn_preserves hTP hI hstep).2.2.2.2.2.1

/-- Witness for C6 at a reachable 2×2 state with two revealed cards: the
symbol remembered for position `(0,0)` equals the true board symbol there. -/
theorem C6_revealed_monotone_sound_witness :
    (0 : Nat) = (⟨2, 2, [[0,1],[0,1]], [((0,0),0), ((0,1),1)], [],
      1, 0, 1⟩ : GameState).get_symbol (0, 0) :=
  (C6_revealed_monotone_sound 2 2 [0,1,0,1]
    ⟨2, 2, [[0,1],[0,1]], [], [], 0, 0, 0⟩
    ⟨2, 2, [[0,1],[0,1]], [((0,0),0), ((0,1),1)], [], 1, 0, 1⟩
    (by decide) (by unfold ValidShuffle; decide) (by decide)
    (Reachable.step Reachable.refl (by decide))).1 (0, 0) 0 (by decide)

/-- Claim C7: in every reachable state the matched set has even size, at most
`total_cards` elements, all of its positions are recorded in `revealed`, and
a successful turn only grows it (both element-wise and in size). -/
theorem C7_matched_invariants (rows cols : Nat) (shuffled : List Nat)
    (s0 s : GameState)
    (heven : rows * cols % 2 = 0) (hperm : ValidShuffle rows cols shuffled)
    (h0 : initGame rows cols shuffled = some s0) (hr : Reachable s0 s) :
    s.matched.length % 2 = 0 ∧ s.matched.length ≤ rows * cols ∧
      (∀ p, p ∈ s.matched → lookupRevealed s.revealed p ≠ none) ∧
      (∀ s1, s.play_turn = some (true, s1) →
        s.matched.length ≤ s1.matched.length ∧
        (∀ p, p ∈ s.matched → p ∈ s1.matched)) := by
  obtain ⟨b, hb, hTP, hI0, _⟩ := init_inv heven hperm h0
  have hI := reachable_inv hTP hI0 hr
  refine ⟨hI.hmEven, matched_length_le hI, hI.hmRev, ?_⟩
  intro s1 hstep
  refine ⟨(play_turn_preserves hTP hI hstep).2.2.2.1, ?_⟩
  rcases play_turn_inv hstep with h1 | ⟨p1, p2, k, h1⟩
  · subst h1
    exact fun p hp => hp
  · subst h1
    exact fun p hp => make_move_matched_superset s p1 p2 k p hp

/-- Witness for C7 at a reachable 2×2 state. -/
theorem C7_matched_invariants_witness :
    (⟨2, 2, [[0,1],[0,1]], [((0,0),0), ((0,1),1)], [],
      1, 0, 1⟩ : GameState).matched.length % 2 = 0 :=
  (C7_matched_invariants 2 2 [0,1,0,1]
    ⟨2, 2, [[0,1],[0,1]], [], [], 0, 0, 0⟩
    ⟨2, 2, [[0,1],[0,1]], [((0,0),0), ((0,1),1)], [], 1, 0, 1⟩
    (by decide) (by unfold ValidShuffle; decide) (by decide)
    (Reachable.step Reachable.refl (by decide))).1

/-- Claim C8: the counters `moves` and `exploratory_moves` start at 0 and are
equal in every reachable state. -/
theorem C8_moves_eq_exploratory (rows cols : Nat) (shuffled : List Nat)
    (s0 s : GameState)
    (heven : rows * cols % 2 = 0) (hperm : ValidShuffle rows cols shuffled)
    (h0 : initGame rows cols shuffled = some s0) (hr : Reachable s0 s) :
    s.moves = s.exploratory_moves ∧ s0.moves = 0 ∧ s0.exploratory_moves = 0 := by
  obtain ⟨b, hb, hTP, hI0, _, _, hmov0, _, hexp0, _⟩ := init_inv heven hperm h0
  have hI := reachable_inv hTP hI0 hr
  exact ⟨hI.hmoves, hmov0, hexp0⟩

/-- Witness for C8 after two turns of a 2×2 game. -/
theorem C8_moves_eq_exploratory_witness :
    (⟨2, 2, [[0,1],[0,1]], [((0,0),0), ((0,1),1), ((1,0),0), ((1,1),1)], [],
      2, 0, 2⟩ : GameState).moves =
    (⟨2, 2, [[0,1],[0,1]], [((0,0),0), ((0,1),1), ((1,0),0), ((1,1),1)], [],
      2, 0, 2⟩ : GameState).exploratory_moves :=
  (C8_moves_eq_exploratory 2 2 [0,1,0,1]
    ⟨2, 2, [[0,1],[0,1]], [], [], 0, 0, 0⟩
    ⟨2, 2, [[0,1],[0,1]], [((0,0),0), ((0,1),1), ((1,0),0), ((1,1),1)], [], 2, 0, 2⟩
    (by decide) (by unfold ValidShuffle; decide) (by decide)
    (@Reachable.step ⟨2, 2, [[0,1],[0,1]], [], [], 0, 0, 0⟩
      ⟨2, 2, [[0,1],[0,1]], [((0,0),0), ((0,1),1)], [], 1, 0, 1⟩
      ⟨2, 2, [[0,1],[0,1]], [((0,0),0), ((0,1),1), ((1,0),0), ((1,1),1)], [], 2, 0, 2⟩
      (Reachable.step Reachable.refl (by decide)) (by decide))).1

/-- Claim C10: in every reachable state of a valid game the number of positions
that are neither matched nor revealed is even (in particular never exactly
one, so the lone-unrevealed branch of `play_turn` never executes), and every
turn that increments `moves` flips the first two previously unseen
positions. -/
theorem C10_unseen_count_even (rows cols : Nat) (shuffled : List Nat)
    (s0 s : GameState)
    (heven : rows * cols % 2 = 0) (hperm : ValidShuffle rows cols shuffled)
    (h0 : initGame rows cols shuffled = some s0) (hr : Reachable s0 s) :
    (s.get_unmatched_positions.filter
        (fun p => decide (lookupRevealed s.revealed p = none))).length % 2 = 0 ∧
      (s.get_unmatched_positions.filter
        (fun p => decide (lookupRevealed s.revealed p = none))).length ≠ 1 ∧
      (∀ s1, s.play_turn = some (true, s1) → s1.moves = s.moves + 1 →
        ∃ p1 p2 rest, s.get_unmatched_positions.filter
            (fun p => decide (lookupRevealed s.revealed p = none)) = p1 :: p2 :: rest ∧
          lookupRevealed s.revealed p1 = none ∧
          lookupRevealed s.revealed p2 = none ∧
          s1 = s.make_move p1 p2 false) := by
  obtain ⟨b, hb, hTP, hI0, _⟩ := init_inv heven hperm h0
  have hI := reachable_inv hTP hI0 hr
  have hlen := length_unrevealed hI
  have heq := hI.hcntEven
  rw [← hlen] at heq
  refine ⟨heq, by omega, ?_⟩
  intro s1 hstep hmoves
  rcases play_turn_true_cases hI hstep with
    ⟨p1, p2, v, h1, h2, hne, hm1, hm2, _, hs1⟩ |
    ⟨p1, p2, h1, h2, hne, ha1, ha2, hm1, hm2, _, ⟨rest, hrest⟩, hs1⟩
  · exfalso
    obtain ⟨_, _, hmov, _⟩ := make_move_known_inv hTP hI h1 h2 hne hm1 hm2
    rw [hs1] at hmoves
    omega
  · exact ⟨p1, p2, rest, hrest, h1, h2, hs1⟩

/-- Witness for C10 after one turn of a 2×2 game: two unseen positions
remain, and the second turn (a wrong move) explores both. -/
theorem C10_unseen_count_even_witness :
    ((⟨2, 2, [[0,1],[0,1]], [((0,0),0), ((0,1),1)], [],
      1, 0, 1⟩ : GameState).get_unmatched_positions.filter
        (fun p => decide (lookupRevealed (⟨2, 2, [[0,1],[0,1]],
          [((0,0),0), ((0,1),1)], [], 1, 0, 1⟩ : GameState).revealed p
          = none))).length % 2 = 0 :=
  (C10_unseen_count_even 2 2 [0,1,0,1]
    ⟨2, 2, [[0,1],[0,1]], [], [], 0, 0, 0⟩
    ⟨2, 2, [[0,1],[0,1]], [((0,0),0), ((0,1),1)], [], 1, 0, 1⟩
    (by decide) (by unfold ValidShuffle; decide) (by decide)
    (Reachable.step Reachable.refl (by decide))).1

/-! ### Claim theorems: termination, turn counting, the 2×2 scenario -/

/-- Claim C3, amended: from a fresh valid game, repeated `play_turn` reaches
the complete state within `total_cards` turns, and `moves`, `perfect_matches`
are (trivially, being `Nat`) nonnegative; the defensive 1000-turn cap of
`play_game` is never reached *provided* `total_cards ≤ 1000` — on larger
boards the cap can trigger (see the counterexample). -/
theorem C3_amended_terminates (rows cols : Nat) (shuffled : List Nat) (s0 : GameState)
    (hpos : 0 < rows * cols) (heven : rows * cols % 2 = 0)
    (hperm : ValidShuffle rows cols shuffled)
    (h0 : initGame rows cols shuffled = some s0) :
    (∃ n s1, n ≤ rows * cols ∧ runTurns s0 n = some s1 ∧
        s1.matched.length = rows * cols ∧ s1.play_turn = some (false, s1) ∧
        0 ≤ s1.moves ∧ 0 ≤ s1.perfect_matches) ∧
      (rows * cols ≤ 1000 →
        ∃ s1 tc, play_game rows cols shuffled = some (s1, tc, false) ∧
          tc ≤ rows * cols ∧ s1.matched.length = rows * cols) := by
  obtain ⟨b, hb, hTP, hI0, _, hmat0, hmov0, _, _, hcnt0⟩ := init_inv heven hperm h0
  have hlen0 : s0.matched.length = 0 := by rw [hmat0]; rfl
  have hmeas0 : turnMeasure s0 ≤ 2 * (rows * cols) := by
    unfold turnMeasure
    rw [hI0.hrows, hI0.hcols, hcnt0]
    omega
  obtain ⟨n, s1, hn, hrun, hI1, hdone, hcnt⟩ :=
    runTurns_complete hTP (rows * cols) s0 hI0 hmeas0
  have hfalse : s1.play_turn = some (false, s1) := play_turn_complete hI1 hdone
  constructor
  · exact ⟨n, s1, hn, hrun, hdone, hfalse, Nat.zero_le _, Nat.zero_le _⟩
  · intro hcap
    have hloop := gameLoop_of_runTurns n s0 s1 0 1000 hrun hfalse (by omega)
    rw [Nat.zero_add] at hloop
    refine ⟨s1, n, ?_, hn, hdone⟩
    unfold play_game
    rw [h0]
    exact hloop

/-- Witness for amended C3 on a 2×2 board. -/
theorem C3_amended_terminates_witness :
    ∃ s1 tc, play_game 2 2 [0,1,0,1] = some (s1, tc, false) ∧ tc ≤ 2 * 2 ∧
      s1.matched.length = 2 * 2 :=
  (C3_amended_terminates 2 2 [0,1,0,1] ⟨2, 2, [[0,1],[0,1]], [], [], 0, 0, 0⟩
    (by decide) (by decide) (by unfold ValidShuffle; decide) (by decide)).2
    (by decide)

/-- Counterexample to claim C3: on a 2×1002 board (2004 cards, a valid even
board) with the identity shuffle, completing the game needs at least 1002
matching turns, so `play_game` exits through the defensive cap with
`turn_count = 1001` and the game incomplete — the claim that the cap is
never reached is false. -/
theorem C3_counterexample_cap_reached :
    (play_game 2 1002 (List.range 1002 ++ List.range 1002)).map
      (fun r => (r.2.1, r.2.2)) = some (1001, true) := by
  have h1002 : 2 * 1002 / 2 = 1002 := by norm_num
  have hperm : ValidShuffle 2 1002 (List.range 1002 ++ List.range 1002) := by
    unfold ValidShuffle
    rw [h1002]
  obtain ⟨b, hbb, _, _, _⟩ := buildBoard_eq (List.range 1002 ++ List.range 1002)
    1002 2 0 (by rw [List.length_append, List.length_range])
  have h0 : initGame 2 1002 (List.range 1002 ++ List.range 1002) =
      some ⟨2, 1002, b, [], [], 0, 0, 0⟩ := by
    unfold initGame setup_board
    rw [hbb]
    rfl
  obtain ⟨b2, hb2, hTP, hI0, _, hmat0, _, _, _, _⟩ :=
    init_inv (by norm_num) hperm h0
  obtain ⟨s1, hloop⟩ := gameLoop_capped hTP 1000
    ⟨2, 1002, b, [], [], 0, 0, 0⟩ 0 hI0 (by simp)
  have hpg : play_game 2 1002 (List.range 1002 ++ List.range 1002) =
      gameLoop ⟨2, 1002, b, [], [], 0, 0, 0⟩ 0 1000 := by
    unfold play_game
    rw [h0, Option.some_bind]
  have harith : (0 + 1000 + 1 : Nat) = 1001 := rfl
  rw [harith] at hloop
  rw [hpg, hloop]
  rfl

/-- Claim C4, amended: for every completed game (normal loop exit), the number
of turns executed equals `moves` plus the number of matches `total_pairs`;
equivalently `moves + perfect_matches + lucky` where the
`lucky = total_pairs - perfect_matches ≥ 0` matches are those made while
exploring.  It equals `moves + perfect_matches` only when every match was a
known match. -/
theorem C4_amended_turns_eq_moves_plus_pairs (rows cols : Nat) (shuffled : List Nat)
    (s0 sf : GameState) (tc : Nat)
    (heven : rows * cols % 2 = 0) (hperm : ValidShuffle rows cols shuffled)
    (h0 : initGame rows cols shuffled = some s0)
    (hfin : play_game rows cols shuffled = some (sf, tc, false)) :
    tc = sf.moves + rows * cols / 2 ∧
      tc = sf.moves + sf.perfect_matches + (rows * cols / 2 - sf.perfect_matches) ∧
      sf.perfect_matches ≤ rows * cols / 2 ∧
      sf.matched.length = rows * cols := by
  obtain ⟨b, hb, hTP, hI0, _, hmat0, hmov0, _, _, _⟩ := init_inv heven hperm h0
  unfold play_game at hfin
  rw [h0] at hfin
  have hfin2 : gameLoop s0 0 1000 = some (sf, tc, false) := hfin
  obtain ⟨hIf, hcomp, hrel⟩ := gameLoop_false_inv hTP 1000 s0 0 sf tc hI0 hfin2
  have hlen0 : s0.matched.length = 0 := by rw [hmat0]; rfl
  rw [hmov0] at hrel
  have hperfle := hIf.hperf
  rw [hcomp] at hperfle
  refine ⟨by omega, by omega, by omega, hcomp⟩

/-- Witness for amended C4: the all-lucky 2×2 game `[[0,0],[1,1]]` takes
`0 + 4/2 = 2` turns. -/
theorem C4_amended_turns_witness :
    (2 : Nat) = (⟨2, 2, [[0,0],[1,1]],
      [((0,0),0), ((0,1),0), ((1,0),1), ((1,1),1)],
      [(0,0), (0,1), (1,0), (1,1)], 0, 0, 0⟩ : GameState).moves + 2 * 2 / 2 :=
  (C4_amended_turns_eq_moves_plus_pairs 2 2 [0,0,1,1]
    ⟨2, 2, [[0,0],[1,1]], [], [], 0, 0, 0⟩
    ⟨2, 2, [[0,0],[1,1]], [((0,0),0), ((0,1),0), ((1,0),1), ((1,1),1)],
      [(0,0), (0,1), (1,0), (1,1)], 0, 0, 0⟩ 2
    (by decide) (by unfold ValidShuffle; decide) (by decide) (by decide)).1

/-- Counterexample to claim C4: on the 2×2 board `[[0,0],[1,1]]` the game
completes in 2 turns, both lucky matches, so `moves + perfect_matches = 0`
while 2 turns were executed: the claimed identity
`turns = moves + perfect_matches` is false. -/
theorem C4_counterexample_lucky_matches :
    (play_game 2 2 [0,0,1,1]).map
        (fun r => (r.2.1, r.1.moves + r.1.perfect_matches, r.2.2))
      = some (2, 0, false) ∧ (2 : Nat) ≠ 0 :=
  ⟨by decide, by decide⟩

/-- Claim C5, amended: for every shuffle of a 2×2 board the game completes
normally in at most 4 turns with at most 2 wrong moves (not, as claimed, in
at most 2 turns with 0 wrong moves: when the first exploration mismatches,
the policy explores the two remaining unknown cards — a second wrong move —
before claiming both pairs from memory). -/
theorem C5_amended_2x2_bounds (l : List Nat) (hperm : ValidShuffle 2 2 l) :
    ∃ sf tc, play_game 2 2 l = some (sf, tc, false) ∧ tc ≤ 4 ∧ sf.moves ≤ 2 ∧
      sf.matched.length = 4 := by
  have hperm2 : l.Perm [0,1,0,1] := hperm
  have hlen : l.length = 4 := by
    have := hperm2.length_eq
    simpa using this
  have hmem01 : ∀ x ∈ l, x = 0 ∨ x = 1 := by
    intro x hx
    have hx2 := hperm2.mem_iff.mp hx
    simp at hx2
    tauto
  have hc0 : l.count 0 = 2 := by rw [hperm2.count_eq]; decide
  have hc1 : l.count 1 = 2 := by rw [hperm2.count_eq]; decide
  rcases l with _ | ⟨a, _ | ⟨b, _ | ⟨c, _ | ⟨d, _ | ⟨e, t⟩⟩⟩⟩⟩ <;> simp at hlen
  have ha := hmem01 a (by simp)
  have hb := hmem01 b (by simp)
  have hc := hmem01 c (by simp)
  have hd := hmem01 d (by simp)
  rcases ha with rfl | rfl <;> rcases hb with rfl | rfl <;>
    rcases hc with rfl | rfl <;> rcases hd with rfl | rfl <;>
    first
      | exact absurd hc0 (by decide)
      | exact absurd hc1 (by decide)
      | exact ⟨_, _, rfl, by decide, by decide, by decide⟩

/-- Witness for amended C5 at the shuffle `[0,0,1,1]`. -/
theorem C5_amended_2x2_bounds_witness :
    ∃ sf tc, play_game 2 2 [0,0,1,1] = some (sf, tc, false) ∧ tc ≤ 4 ∧
      sf.moves ≤ 2 ∧ sf.matched.length = 4 :=
  C5_amended_2x2_bounds [0,0,1,1] (by unfold ValidShuffle; decide)

/-- Counterexample to claim C5: on the 2×2 board `[[0,1],[0,1]]` the game takes 4
turns and 2 wrong moves, contradicting "at most 2 turns" and "moves = 0". -/
theorem C5_counterexample_2x2_four_turns :
    (play_game 2 2 [0,1,0,1]).map (fun r => (r.2.1, r.1.moves, r.2.2))
        = some (4, 2, false) ∧ ¬ ((4 : Nat) ≤ 2) ∧ (2 : Nat) ≠ 0 :=
  ⟨by decide, by decide, by decide⟩

/-- Witness for C1 on a 2×2 board. -/
theorem C1_board_witness :
    ∃ b, setup_board 2 2 [0,1,0,1] = some b ∧ b.flatten.count 0 = 2 := by
  obtain ⟨b, h1, _, _, _, h5, _⟩ := C1_board_is_paired_permutation 2 2 [0,1,0,1]
    (by decide) (by decide) (by unfold ValidShuffle; decide)
  exact ⟨b, h1, h5 0 (by decide)⟩

/-- Witness for C9: a 1×3 board has 3 cells; generation fails. -/
theorem C9_odd_witness : setup_board 1 3 [0,0] = none ∧ play_game 1 3 [0,0] = none := by
  obtain ⟨h1, h2, h3⟩ := (C9_odd_cell_count_fails_fast 1 3 [0,0]
    (by unfold ValidShuffle; decide)).1 (by decide)
  exact ⟨h1, h3⟩

end MemoryGame
